import Mathlib

/-!
Verification of the stackrankdice rules engine: a shallow embedding of the
board-generation algorithm (`src/game.rs`), the clash-resolution / turn /
win-check system (`src/events.rs`) and the randomness plumbing
(`src/tiered_prng.rs`), together with proofs and refutations of the frozen
claims about them.

Randomness is embedded as an abstract tape of raw natural draws: every random
primitive of the `rand` crate (`gen_range`, `choose`, `choose_multiple`)
consumes draws from the tape and turns them into a value of the required
range by reduction modulo the range size.  Any concrete tape instantiates one
possible run; all theorems quantify over the tape, so they hold for every
outcome of the randomness.  Rust `usize`/`isize` values are carried as
`Nat`/`Int`; the partial operations of the source (indexing, `unwrap`,
subtraction underflow, empty `gen_range`) are modelled with `Option`, `none`
standing for a panic.
-/

namespace StackRankDice

/-- Axial hex coordinate: the pair `(q, r)` of signed integers. The sources
carry these as `(isize, isize)` pairs inside `Region.hexes` and
`Board.hexes`, converting to `HexCoord` for neighbor queries. -/
abbrev Coord := Int × Int

/-- Modelled from the spec: the file `hex.rs` (module `hex`, declared in
`main.rs`) is absent from the sources, so `HexCoord::neighbors` is taken from
spec section 3: the six axial directions
"(+1,0),(+1,-1),(0,-1),(-1,0),(-1,+1),(0,+1)". -/
def hexDirections : List Coord := [(1, 0), (1, -1), (0, -1), (-1, 0), (-1, 1), (0, 1)]

/-- Modelled from the spec: `neighbors()` returns the six axial coordinates at
unit distance from `c` (spec sections 3 and 4.1). -/
def neighbors (c : Coord) : List Coord :=
  hexDirections.map (fun d => (c.1 + d.1, c.2 + d.2))

/-- Hex adjacency: `b` is one of the six neighbors of `a`. -/
def Adj (a b : Coord) : Prop := b ∈ neighbors a

instance : DecidablePred fun p : Coord × Coord => Adj p.1 p.2 := by
  intro p; unfold Adj; infer_instance

instance (a b : Coord) : Decidable (Adj a b) := by
  unfold Adj; infer_instance

/-- The `hexes` field of `Board`, `HashMap<(isize, isize), usize>` in the
source, modelled as an association list: `insert` conses a binding and `get`
returns the first binding of the key, so later inserts shadow earlier ones
exactly as `HashMap::insert` does (the generator moreover only ever inserts
keys it has checked to be absent). -/
abbrev HexMap := List (Coord × Nat)

/-- `HashMap::get`, first binding wins. -/
def hmGet : HexMap → Coord → Option Nat
  | [], _ => none
  | e :: rest, c => if e.1 = c then some e.2 else hmGet rest c

/-- `HashMap::insert` (the generator never overwrites an existing key). -/
def hmInsert (m : HexMap) (c : Coord) (p : Nat) : HexMap := (c, p) :: m

/-- `Region` of `src/game.rs`: footprint, owner, dice count and creation-order
id. -/
structure Region where
  hexes : List Coord
  owner : Nat
  num_dice : Nat
  id : Nat
deriving DecidableEq, Repr

/-- `Board` of `src/game.rs`: the hex-to-owner map and the region list. -/
structure Board where
  hexes : HexMap
  regions : List Region
deriving DecidableEq, Repr

/-- `BOARD_SIZE` of `src/game.rs`. -/
def BOARD_SIZE : Nat := 20

/-- `NUMBER_OF_PATCHES` of `src/game.rs`. -/
def NUMBER_OF_PATCHES : Nat := 16

/-- `HALF_BOARD_SIZE = BOARD_SIZE / 2 - 1 = 9` of `src/game.rs`. -/
def HALF_BOARD_SIZE : Int := 9

/-- Abstract random stream: a tape of raw natural draws together with the
current read position.  `ChaCha20Rng` (seeded from the world seed,
`src/tiered_prng.rs`) and `rand::thread_rng()` (used in
`event_region_clash_end`, `src/events.rs`) are both instances: a pure stream
determined by the seed in the first case, an OS-seeded per-run stream in the
second. -/
structure Tape where
  f : Nat → Nat
  pos : Nat

/-- Consume one raw draw from the tape. -/
def Tape.draw (t : Tape) : Nat × Tape := (t.f t.pos, ⟨t.f, t.pos + 1⟩)

/-- Embedding of `Rng::gen_range(lo..hi)` on signed integers for a nonempty
range: one raw draw reduced into `[lo, hi)`. -/
def genRangeInt (lo hi : Int) (t : Tape) : Int × Tape :=
  let (r, t1) := t.draw
  (lo + (r : Int) % (hi - lo), t1)

/-- The random starting coordinate of a patch attempt,
`(rng.gen_range(-HALF_BOARD_SIZE..HALF_BOARD_SIZE), rng.gen_range(...))` in
`generate_board`. -/
def drawCoord (t : Tape) : Coord × Tape :=
  let (q, t1) := genRangeInt (-HALF_BOARD_SIZE) HALF_BOARD_SIZE t
  let (r, t2) := genRangeInt (-HALF_BOARD_SIZE) HALF_BOARD_SIZE t1
  ((q, r), t2)

/-- Remove the element at position `n` of a list, returning it and the rest;
`none` when the list is empty (callers always reduce the index modulo the
length first). -/
def pickAt : List Coord → Nat → Option (Coord × List Coord)
  | [], _ => none
  | x :: xs, 0 => some (x, xs)
  | x :: xs, n + 1 => (pickAt xs n).map (fun y => (y.1, x :: y.2))

/-- Embedding of `IteratorRandom::choose_multiple(rng, len)` applied to the
whole list: a random reordering, produced by repeatedly extracting the
element at a tape-drawn position. -/
def permuteAux : Nat → Tape → List Coord → List Coord × Tape
  | 0, t, l => (l, t)
  | fuel + 1, t, l =>
    match l with
    | [] => ([], t)
    | _ :: _ =>
      let (r, t1) := t.draw
      match pickAt l (r % l.length) with
      | none => (l, t1)
      | some (y, ys) =>
        let (rest, t2) := permuteAux fuel t1 ys
        (y :: rest, t2)

/-- Random reordering of a list, one tape draw per element. -/
def permute (t : Tape) (l : List Coord) : List Coord × Tape :=
  permuteAux l.length t l

/-- Whether a patch hex has at least one neighbor free in the snapshot
(the inner neighbor scan of the growth loop in `generate_board`). -/
def hasFreeNeighbor (snap : HexMap) (c : Coord) : Bool :=
  (neighbors c).any (fun nb => (hmGet snap nb).isNone)

/-- The first hex of the (randomly reordered) patch that still has a free
neighbor: computes `neightbour_hex` of `generate_board`. -/
def findGrowHex (snap : HexMap) : List Coord → Option Coord
  | [] => none
  | c :: rest => if hasFreeNeighbor snap c then some c else findGrowHex snap rest

/-- The `candidates` vector of `generate_board`: the free neighbors of the
chosen border hex. -/
def freeCandidates (snap : HexMap) (c : Coord) : List Coord :=
  (neighbors c).filter (fun nb => (hmGet snap nb).isNone)

/-- The growth loop `for _ in 0..patch_size` of `generate_board`: up to
`steps` times, pick a random border hex of the patch that has a free
neighbor, then adjoin one of its free neighbors, chosen at random, to the
patch and to the snapshot.  Stops early when no patch hex can grow.  `none`
models the `unwrap` panic on an empty candidate list (provably unreachable).
-/
def growPatch : Nat → Tape → List Coord → HexMap → Nat → Option (List Coord × HexMap × Tape)
  | 0, t, patch, snap, _ => some (patch, snap, t)
  | steps + 1, t, patch, snap, player =>
    let (perm, t1) := permute t patch
    match findGrowHex snap perm with
    | none => some (patch, snap, t1)
    | some hex =>
      let cands := freeCandidates snap hex
      match cands with
      | [] => none
      | _ :: _ =>
        let (r, t2) := t1.draw
        match pickAt cands (r % cands.length) with
        | none => none
        | some (c, _) =>
          growPatch steps t2 (patch ++ [c]) (hmInsert snap c player) player

/-- One patch of `generate_board`, i.e. the body of the
`while !is_starting_point_valid { while !has_neighbours { ... } }` retry
loops for a fixed `(patch, player)` pair.  Each round: draw a starting
coordinate (retrying while it is occupied), grow a patch of up to `psize`
extra hexes on a snapshot of the board, then
  - if the patch stayed a single hex, stop without adding a region (the
    source `break`s out of both loops before pushing the region);
  - else, if the patch touches previously placed territory, or this is the
    very first patch of the very first player, commit the snapshot and append
    the new region (owner `player`, zero dice, id = current region count);
  - else discard the attempt and retry with the advanced rng.
`fuel` bounds the unbounded source loop; `none` models non-termination within
the bound (or a panic inside growth). -/
def genPatch : Nat → Board → Nat → Bool → Nat → Tape → Option (Board × Tape)
  | 0, _, _, _, _, _ => none
  | fuel + 1, board, player, first, psize, t =>
    let (c0, t1) := drawCoord t
    if (hmGet board.hexes c0).isSome then
      genPatch fuel board player first psize t1
    else
      let snap0 := hmInsert board.hexes c0 player
      match growPatch psize t1 [c0] snap0 player with
      | none => none
      | some (patch, snap, t2) =>
        if patch.length = 1 then some (board, t2)
        else
          let touches := patch.any (fun h =>
            (neighbors h).any (fun nb => (hmGet board.hexes nb).isSome))
          if first || touches then
            some ({ hexes := snap,
                    regions := board.regions ++
                      [{ hexes := patch, owner := player, num_dice := 0,
                         id := board.regions.length }] }, t2)
          else genPatch fuel board player first psize t2

/-- The iteration order of the patch loops of `generate_board`:
`for patch in 0..NUMBER_OF_PATCHES { for player in 0..number_of_players }`.
-/
def pairsList (numberOfPlayers : Nat) : List (Nat × Nat) :=
  (List.range NUMBER_OF_PATCHES).flatMap
    (fun patch => (List.range numberOfPlayers).map (fun player => (patch, player)))

/-- Folds `genPatch` over the patch/player pairs. -/
def genBoardLoop (fuel psize : Nat) : List (Nat × Nat) → Board → Tape → Option (Board × Tape)
  | [], b, t => some (b, t)
  | pq :: rest, b, t =>
    match genPatch fuel b pq.2 (pq.1 = 0 && pq.2 = 0) psize t with
    | none => none
    | some (b1, t1) => genBoardLoop fuel psize rest b1 t1

/-- The dice-allocation loop of `generate_board`: iterating regions in
creation order, each region gets `rng.gen_range(1..min(4, budget[owner]))`
dice and the owner's budget is decremented by that amount.  `budget` is the
`dice_budget` map (a total function here; the source map holds every owner
that can occur).  `none` models the `gen_range` panic on an empty range
(`min(4, budget) <= 1`). -/
def allocDice : List Region → (Nat → Nat) → Tape → Option (List Region × Tape)
  | [], _, t => some ([], t)
  | r :: rest, budget, t =>
    let k := min 4 (budget r.owner)
    if k ≤ 1 then none
    else
      let (raw, t1) := t.draw
      let d := 1 + raw % (k - 1)
      match allocDice rest
          (fun p => if p = r.owner then budget r.owner - d else budget p) t1 with
      | none => none
      | some (rest1, t2) => some ({ r with num_dice := d } :: rest1, t2)

/-- `generate_board(number_of_players, rng)` of `src/game.rs`: the patch-size
budget `(BOARD_SIZE * BOARD_SIZE) / (NUMBER_OF_PATCHES * number_of_players *
2)`, the patch placement loops, then dice allocation with initial per-player
budget `NUMBER_OF_PATCHES * 4`.  `fuel` bounds the source's unbounded retry
loops; `none` models non-termination within the bound or a panic. -/
def generate_board (numberOfPlayers : Nat) (t : Tape) (fuel : Nat) : Option Board :=
  let psize := (BOARD_SIZE * BOARD_SIZE) / (NUMBER_OF_PATCHES * numberOfPlayers * 2)
  match genBoardLoop fuel psize (pairsList numberOfPlayers) ⟨[], []⟩ t with
  | none => none
  | some (b, t1) =>
    match allocDice b.regions (fun _ => NUMBER_OF_PATCHES * 4) t1 with
    | none => none
    | some (regions1, _) => some { b with regions := regions1 }

/-- `GameLogEntry` of `src/game.rs`: one resolved or in-flight clash,
`region_1` is the attacker snapshot, `region_2` the defender snapshot. -/
structure GameLogEntry where
  turn_counter : Nat
  turn_of_player : Nat
  region_1 : Region
  region_2 : Region
  dice_1_sum : Nat
  dice_2_sum : Nat
deriving DecidableEq, Repr

/-- `GameState` of `src/game.rs`. -/
structure GameState where
  board : Board
  turn_of_player : Nat
  turn_counter : Nat
  number_of_players : Nat
  game_log : List GameLogEntry
deriving DecidableEq, Repr

/-- `Region::is_opponent` of `src/game.rs`: owners differ and some hex of
`self` has a neighbor inside `other`'s footprint. -/
def is_opponent (self other : Region) : Bool :=
  if self.owner = other.owner then false
  else self.hexes.any (fun h =>
    (neighbors h).any (fun nb => other.hexes.any (fun x => decide (x = nb))))

/-- `EventRegionClashEnd` of `src/events.rs`: the two region snapshots (taken
from the last game-log entry, which recorded them at clash start) and the two
dice sums. -/
structure ClashEnd where
  region1 : Region
  region2 : Region
  dice_1_sum : Nat
  dice_2_sum : Nat
deriving DecidableEq, Repr

/-- Write the `owner` field of `regions[i]`; `none` models the Rust indexing
panic when `i` is out of range. -/
def setOwner (l : List Region) (i : Nat) (p : Nat) : Option (List Region) :=
  match l.get? i with
  | none => none
  | some r => some (l.set i { r with owner := p })

/-- Write the `num_dice` field of `regions[i]`; `none` on an out-of-range
index. -/
def setDice (l : List Region) (i : Nat) (d : Nat) : Option (List Region) :=
  match l.get? i with
  | none => none
  | some r => some (l.set i { r with num_dice := d })

/-- The compound assignment `regions[i].num_dice -= amt`; `none` on an
out-of-range index or on `usize` underflow (a Rust panic). -/
def subDice (l : List Region) (i : Nat) (amt : Nat) : Option (List Region) :=
  match l.get? i with
  | none => none
  | some r =>
    if amt ≤ r.num_dice then some (l.set i { r with num_dice := r.num_dice - amt })
    else none

/-- One branch body of the clash-end `for` loop of `event_region_clash_end`
(`src/events.rs`), with `winner`/`loser` the event snapshots of the winning
and losing side: the losing region's owner becomes the winner's owner; when
the winner's snapshot had more than one die, the losing region's dice count
is redrawn as `rng.gen_range(1..winner.num_dice)` and the winning region
loses (new loser count - 1) dice. -/
def resolveWin (l : List Region) (winner loser : Region) (t : Tape) :
    Option (List Region × Tape) :=
  match setOwner l loser.id winner.owner with
  | none => none
  | some l1 =>
    if winner.num_dice > 1 then
      let (raw, t1) := t.draw
      let d := 1 + raw % (winner.num_dice - 1)
      match setDice l1 loser.id d with
      | none => none
      | some l2 =>
        match l2.get? loser.id with
        | none => none
        | some lr =>
          match subDice l2 winner.id (lr.num_dice - 1) with
          | none => none
          | some l3 => some (l3, t1)
    else some (l1, t)

/-- The per-event mutation of `event_region_clash_end`: attacker (`region1`)
wins when its dice sum is strictly greater, otherwise the defender
(`region2`) wins - ties favor the defender. -/
def clashEndStep (b : Board) (e : ClashEnd) (t : Tape) : Option (Board × Tape) :=
  if e.dice_1_sum > e.dice_2_sum then
    (resolveWin b.regions e.region1 e.region2 t).map
      (fun x => ({ b with regions := x.1 }, x.2))
  else
    (resolveWin b.regions e.region2 e.region1 t).map
      (fun x => ({ b with regions := x.1 }, x.2))

/-- The clash-end event loop: resolve each pending event in order. -/
def clashEndFold : Board → List ClashEnd → Tape → Option (Board × Tape)
  | b, [], t => some (b, t)
  | b, e :: rest, t =>
    match clashEndStep b e t with
    | none => none
    | some (b1, t1) => clashEndFold b1 rest t1

/-- `region_made_move_this_turn` of `event_region_clash_end`: the attacker
snapshots of all log entries stamped with the current turn counter and
player. -/
def regionsMadeMove (gs : GameState) : List Region :=
  (gs.game_log.filter (fun gl =>
    decide (gl.turn_counter = gs.turn_counter) &&
    decide (gl.turn_of_player = gs.turn_of_player))).map (fun gl => gl.region_1)

/-- `regions_able_to_move_this_turn` of `event_region_clash_end`: the current
player's regions whose id does not occur among this turn's movers. -/
def regionsAbleToMove (gs : GameState) : List Region :=
  gs.board.regions.filter (fun r =>
    decide (r.owner = gs.turn_of_player) &&
    decide (((regionsMadeMove gs).filter (fun m => decide (m.id = r.id))).length = 0))

/-- The regions counted by `number_of_unblocked_regions`: able to move this
turn and having at least one opponent region on the board. -/
def unblockedRegions (gs : GameState) : List Region :=
  (regionsAbleToMove gs).filter (fun r1 =>
    decide ((gs.board.regions.filter (fun r2 => is_opponent r2 r1)).length > 0))

/-- The turn-switch block of `event_region_clash_end`: when no region of the
current player can still act, `turn_of_player` is incremented (wrapping to 0
at `number_of_players`) and `turn_counter` is incremented. -/
def advanceTurn (gs : GameState) : GameState :=
  if (unblockedRegions gs).length = 0 then
    let tp := gs.turn_of_player + 1
    { gs with
      turn_of_player := if tp ≥ gs.number_of_players then 0 else tp,
      turn_counter := gs.turn_counter + 1 }
  else gs

/-- Number of regions owned by `p` (the `regions_by_player` tally of
`event_region_clash_end`). -/
def countOwner (l : List Region) (p : Nat) : Nat :=
  (l.filter (fun r => decide (r.owner = p))).length

/-- The win check of `event_region_clash_end`: some owner holds every region
of the board.  The source iterates the `regions_by_player` hash map and emits
for the first owner whose count equals the region total; since such an owner
owns every region he is unique, so the map's iteration order is immaterial
and scanning owners in region order is observably identical. -/
def winCheck (b : Board) : Option Nat :=
  (b.regions.map (fun r => r.owner)).find?
    (fun p => decide (countOwner b.regions p = b.regions.length))

/-- Observable outcome of one run of the `event_region_clash_end` system:
the updated game state, the game-over signal (if emitted this run) and
whether the board was redrawn. -/
structure SysResult where
  state : GameState
  game_over : Option Nat
  redraw : Bool
deriving DecidableEq, Repr

/-- One run of the `event_region_clash_end` system of `src/events.rs`: resolve
the pending clash-end events in order, then (unconditionally - the system
runs every frame) evaluate the turn switch, then the win check; a game-over
emission returns before the redraw.  `t` is the run's `rand::thread_rng()`
tape, created fresh at the top of the system. -/
def clashEndSystem (gs : GameState) (events : List ClashEnd) (t : Tape) :
    Option SysResult :=
  match clashEndFold gs.board events t with
  | none => none
  | some (b1, _) =>
    let gs1 := advanceTurn { gs with board := b1 }
    match winCheck gs1.board with
    | some w => some ⟨gs1, some w, false⟩
    | none => some ⟨gs1, none, decide (events.length > 0)⟩

/-! Invariant predicates used to state the generation claims. -/

/-- Region ids equal creation-order positions: `board.regions[i].id == i`. -/
def IdsInv (l : List Region) : Prop := ∀ i r, l.get? i = some r → r.id = i

/-- One step of a walk inside the footprint `l`: reflexive-transitive closure
of stepping to an adjacent member hex. -/
def Steps (l : List Coord) (a b : Coord) : Prop :=
  Relation.ReflTransGen (fun x y => y ∈ l ∧ Adj x y) a b

/-- Footprint connectivity: from any member hex, repeatedly stepping to
adjacent member hexes reaches every other member hex. -/
def ConnectedL (l : List Coord) : Prop := ∀ a ∈ l, ∀ b ∈ l, Steps l a b

/-- The partition invariant of the spec: every hex key present in
`board.hexes` belongs to exactly one region's hex list, and every region
containing it has the mapping's owner value. -/
def PartitionInv (b : Board) : Prop :=
  ∀ c p, hmGet b.hexes c = some p →
    (∃! i : Nat, ∃ r, b.regions.get? i = some r ∧ c ∈ r.hexes) ∧
    (∀ i r, b.regions.get? i = some r → c ∈ r.hexes → r.owner = p)

/-- The inductive invariant maintained by the patch-placement loops of
`generate_board` for `n` players: regions map onto the hex map with their
owner as value, every key is covered by a region, footprints are pairwise
disjoint, ids are creation-order positions, owners are player indices, and
every footprint is non-empty and connected. -/
structure GenInv (n : Nat) (b : Board) : Prop where
  mapped : ∀ r ∈ b.regions, ∀ c ∈ r.hexes, hmGet b.hexes c = some r.owner
  covered : ∀ c p, hmGet b.hexes c = some p → ∃ r ∈ b.regions, c ∈ r.hexes
  disj : b.regions.Pairwise (fun r s => ∀ c, c ∈ r.hexes → c ∉ s.hexes)
  ids : IdsInv b.regions
  owners : ∀ r ∈ b.regions, r.owner < n
  conn : ∀ r ∈ b.regions, r.hexes ≠ [] ∧ ConnectedL r.hexes

/-- The invariant of one growing patch over the snapshot `snap`, relative to
the committed hex map `m`: the snapshot extends `m` exactly by the patch
hexes (owned by `player`), the patch is disjoint from `m`, non-empty and
connected. -/
structure GrowInv (m : HexMap) (player : Nat) (patch : List Coord) (snap : HexMap) : Prop where
  ext : ∀ c p, hmGet m c = some p → hmGet snap c = some p
  newKeys : ∀ c p, hmGet snap c = some p → hmGet m c = some p ∨ (c ∈ patch ∧ p = player)
  patchMapped : ∀ c ∈ patch, hmGet snap c = some player
  patchFresh : ∀ c ∈ patch, hmGet m c = none
  nonempty : patch ≠ []
  conn : ConnectedL patch

/-- Dice spent on the first `k` regions of the list that belong to player
`p`: reconstructs the successive decrements of the `dice_budget` map of
`generate_board` from the allocated region list. -/
def spentBefore : List Region → Nat → Nat → Nat
  | _, 0, _ => 0
  | [], _ + 1, _ => 0
  | r :: rest, k + 1, p => (if r.owner = p then r.num_dice else 0) + spentBefore rest k p

/-! Concrete sample data used by witnesses and counterexamples. -/

/-- The all-zero raw tape. -/
def tape0 : Tape := ⟨fun _ => 0, 0⟩

/-- The all-one raw tape. -/
def tape1 : Tape := ⟨fun _ => 1, 0⟩

/-- The board produced by `generate_board` for 13 players: the patch-size
budget `400 / (16 * 13 * 2)` is zero, so every patch stops at a single hex
and is discarded before being pushed, leaving no hexes and no regions. -/
def emptyBoard : Board := ⟨[], []⟩

/-- Sample region: owner 0, three dice, id 0. -/
def rA : Region := ⟨[(0, 0)], 0, 3, 0⟩

/-- Sample region: owner 1, one die, id 1. -/
def rB : Region := ⟨[(1, 0)], 1, 1, 1⟩

/-- Sample region: owner 0, one die, id 0. -/
def rC : Region := ⟨[(0, 0)], 0, 1, 0⟩

/-- Sample two-region board with a three-dice attacker. -/
def bAB : Board := ⟨[((0, 0), 0), ((1, 0), 1)], [rA, rB]⟩

/-- Sample clash end: `rA` attacks `rB` and wins 5 to 2. -/
def eAB : ClashEnd := ⟨rA, rB, 5, 2⟩

/-- Sample two-region board with a one-die attacker. -/
def bCB : Board := ⟨[((0, 0), 0), ((1, 0), 1)], [rC, rB]⟩

/-- Sample clash end: one-die `rC` attacks `rB` and wins 4 to 1. -/
def eCB : ClashEnd := ⟨rC, rB, 4, 1⟩

/-- The board after `rC` captures `rB`: region 1 is recolored to owner 0 but
the hex map still records owner 1 for its hex. -/
def bFlip : Board := ⟨[((0, 0), 0), ((1, 0), 1)], [rC, ⟨[(1, 0)], 0, 1, 1⟩]⟩

/-- The post-clash board of the sample clash, for the C5 witness. -/
def step5 : Board × Tape := (clashEndStep bAB eAB tape0).getD (bAB, tape0)

/-- Sample game state for the C5 witness: two players, player 0 to move,
empty log. -/
def gs5 : GameState := ⟨bAB, 0, 0, 2, []⟩

/-- The system-run result on `gs5`, for the C5 witness. -/
def res5 : SysResult := (clashEndSystem gs5 [eAB] tape0).getD ⟨gs5, none, false⟩

/-- Sample state for the C6 counterexample: mid-game, player 0 attacking,
the log already holds the clash-start entry. -/
def gsW : GameState := ⟨bAB, 0, 0, 2, [⟨0, 0, rA, rB, 5, 2⟩]⟩

/-- The first system-run result on `gsW`, for the C6 witness. -/
def resW : SysResult := (clashEndSystem gsW [eAB] tape0).getD ⟨gsW, none, false⟩

/-- Helper: the 13-player generation evaluates to the empty board. -/
theorem gen13_eval : generate_board 13 tape0 1 = some emptyBoard := by decide

/-- C3. Determinism of generation: `generate_board` is a pure function of the
player count and the random stream, so identical stream states give
identical boards (the source touches no other randomness source: the
`ChaCha20Rng` argument is consumed by value and `rand::thread_rng` is not
used in `generate_board`). -/
theorem generation_deterministic (n : Nat) (fuel : Nat) (t1 t2 : Tape)
    (_hn : 1 ≤ n) (ht : t1 = t2) :
    generate_board n t1 fuel = generate_board n t2 fuel := by
  rw [ht]

/-- Witness for C3 at players = 13, the all-zero tape. -/
theorem generation_deterministic_witness :
    1 ≤ 13 ∧ generate_board 13 tape0 1 = generate_board 13 tape0 1 :=
  ⟨by decide, generation_deterministic 13 1 tape0 tape0 (by decide) rfl⟩

/-- Counterexample for C8.  The post-resolution dice split of
`event_region_clash_end` draws from `rand::thread_rng()` — a per-run
OS-seeded generator — not from any stream derived from `env_seed` (the
source never constructs an environment stream; `PrngPlugin` only builds the
world-seeded map rng).  Hence two runs that agree on every seed and on the
clash inputs, and differ only in the thread-rng draws, produce different
post-resolution dice counts: with raw draw 0 the captured region gets 1 die,
with raw draw 1 it gets 2. -/
theorem dice_split_not_env_seeded :
    (clashEndStep bAB eAB tape0).map Prod.fst ≠
      (clashEndStep bAB eAB tape1).map Prod.fst := by
  decide

/-- Helper: the board component of `resolveWin` depends on the tape only
through the single raw draw it may consume. -/
theorem resolveWin_fst_of_draw_eq (l : List Region) (w lo : Region) (t1 t2 : Tape)
    (ht : t1.f t1.pos = t2.f t2.pos) :
    (resolveWin l w lo t1).map Prod.fst = (resolveWin l w lo t2).map Prod.fst := by
  unfold resolveWin Tape.draw
  dsimp only
  rw [ht]
  split
  · rfl
  · split
    · split
      · rfl
      · split
        · rfl
        · split
          · rfl
          · rfl
    · rfl

/-- Helper: the board component of `clashEndStep`, expressed through
`resolveWin`. -/
theorem clashEndStep_fst (b : Board) (e : ClashEnd) (t : Tape) :
    (clashEndStep b e t).map Prod.fst =
      ((if e.dice_1_sum > e.dice_2_sum then resolveWin b.regions e.region1 e.region2 t
        else resolveWin b.regions e.region2 e.region1 t).map Prod.fst).map
        (fun l => { b with regions := l }) := by
  unfold clashEndStep
  by_cases hs : e.dice_1_sum > e.dice_2_sum
  · simp only [if_pos hs]
    cases resolveWin b.regions e.region1 e.region2 t <;> rfl
  · simp only [if_neg hs]
    cases resolveWin b.regions e.region2 e.region1 t <;> rfl

/-- C8 amended: the dice split is deterministic in the thread-rng draw alone:
two runs whose thread tapes yield the same raw draw produce identical
post-resolution boards for the same clash inputs, and no seed-derived
stream enters `event_region_clash_end`'s dice split at all. -/
theorem dice_split_thread_rng_der (b : Board) (e : ClashEnd) (t1 t2 : Tape)
    (ht : t1.f t1.pos = t2.f t2.pos) :
    (clashEndStep b e t1).map Prod.fst = (clashEndStep b e t2).map Prod.fst := by
  rw [clashEndStep_fst, clashEndStep_fst]
  by_cases hs : e.dice_1_sum > e.dice_2_sum
  · simp only [if_pos hs, resolveWin_fst_of_draw_eq b.regions e.region1 e.region2 t1 t2 ht]
  · simp only [if_neg hs, resolveWin_fst_of_draw_eq b.regions e.region2 e.region1 t1 t2 ht]

/-- Witness for the amended C8 at concrete tapes agreeing on their next
draw. -/
theorem dice_split_thread_rng_der_witness :
    (⟨fun _ => 5, 0⟩ : Tape).f 0 = (⟨fun i => i + 5, 0⟩ : Tape).f 0 ∧
      (clashEndStep bAB eAB ⟨fun _ => 5, 0⟩).map Prod.fst =
        (clashEndStep bAB eAB ⟨fun i => i + 5, 0⟩).map Prod.fst :=
  ⟨rfl, dice_split_thread_rng_der bAB eAB _ _ rfl⟩

/-- Helper: full specification of `resolveWin` under the conditions that hold
when a clash-end event is processed: both region ids index the region list,
the ids are distinct, the winner's board entry still carries the snapshot's
dice count, and every region has at least one die.  The losing region's owner
becomes the winner's owner; when the winner's snapshot had more than one die
the loser's new dice count is a fresh draw in `[1, winner.num_dice)` and the
winner's entry loses (that count - 1) dice; every dice count stays at least
1. -/
theorem resolveWin_spec (l : List Region) (w lo : Region) (t : Tape)
    (hw : w.id < l.length) (hlo : lo.id < l.length) (hne : w.id ≠ lo.id)
    (rwv : Region) (hrw : l.get? w.id = some rwv) (hsw : rwv.num_dice = w.num_dice)
    (hall : ∀ r ∈ l, 1 ≤ r.num_dice) :
    ∃ l3 t3, resolveWin l w lo t = some (l3, t3) ∧
      l3.length = l.length ∧
      (∀ r ∈ l3, 1 ≤ r.num_dice) ∧
      ∃ rwn rlon, l3.get? w.id = some rwn ∧ l3.get? lo.id = some rlon ∧
        rlon.owner = w.owner ∧
        (w.num_dice > 1 →
          1 ≤ rlon.num_dice ∧ rlon.num_dice < w.num_dice ∧
          rwn.num_dice = w.num_dice - (rlon.num_dice - 1)) := by
  have hglo : l.get? lo.id = some (l.get ⟨lo.id, hlo⟩) := List.get?_eq_get hlo
  set rlov := l.get ⟨lo.id, hlo⟩ with hrlov
  have hrlovmem : rlov ∈ l := List.get_mem l lo.id hlo
  have hrwvmem : rwv ∈ l := List.get?_mem hrw
  have hso : setOwner l lo.id w.owner = some (l.set lo.id { rlov with owner := w.owner }) := by
    unfold setOwner
    rw [hglo]
  by_cases hd : w.num_dice > 1
  · -- the dice-split branch
    set raw := t.f t.pos with hraw
    set d := 1 + raw % (w.num_dice - 1) with hdef
    have hmod : raw % (w.num_dice - 1) < w.num_dice - 1 := Nat.mod_lt _ (by omega)
    have hd1 : 1 ≤ d := by omega
    have hdlt : d < w.num_dice := by omega
    set rlo1 : Region := { rlov with owner := w.owner } with hrlo1
    set l1 := l.set lo.id rlo1 with hl1
    set rlo2 : Region := { rlo1 with num_dice := d } with hrlo2
    set l2 := l1.set lo.id rlo2 with hl2
    set rw3 : Region := { rwv with num_dice := rwv.num_dice - (d - 1) } with hrw3
    set l3 := l2.set w.id rw3 with hl3
    have hl1lo : l1.get? lo.id = some rlo1 := List.get?_set_eq_of_lt _ hlo
    have hsd : setDice l1 lo.id d = some l2 := by
      unfold setDice
      rw [hl1lo]
    have hlo2 : lo.id < l1.length := by
      rw [hl1, List.length_set]; exact hlo
    have hl2lo : l2.get? lo.id = some rlo2 := List.get?_set_eq_of_lt _ hlo2
    have hl2w : l2.get? w.id = some rwv := by
      rw [hl2, List.get?_set_ne _ _ (Ne.symm hne), hl1, List.get?_set_ne _ _ (Ne.symm hne), hrw]
    have hamt : d - 1 ≤ rwv.num_dice := by omega
    have hsub : subDice l2 w.id (rlo2.num_dice - 1) = some l3 := by
      show subDice l2 w.id (d - 1) = some l3
      unfold subDice
      rw [hl2w]
      dsimp only
      rw [if_pos hamt]
    have hl3w : l3.get? w.id = some rw3 := by
      refine List.get?_set_eq_of_lt _ ?_
      rw [hl2, List.length_set, hl1, List.length_set]
      exact hw
    have hl3lo : l3.get? lo.id = some rlo2 := by
      rw [hl3, List.get?_set_ne _ _ hne, hl2lo]
    have hrun : resolveWin l w lo t = some (l3, ⟨t.f, t.pos + 1⟩) := by
      unfold resolveWin Tape.draw
      rw [hso]
      dsimp only
      rw [if_pos hd, ← hraw, ← hdef, hsd]
      dsimp only
      rw [hl2lo]
      dsimp only
      rw [hsub]
    refine ⟨l3, ⟨t.f, t.pos + 1⟩, hrun, ?_, ?_, rw3, rlo2, hl3w, hl3lo, rfl, ?_⟩
    · rw [hl3, List.length_set, hl2, List.length_set, hl1, List.length_set]
    · intro r hr
      rcases List.mem_or_eq_of_mem_set hr with hr2 | hr2
      · rcases List.mem_or_eq_of_mem_set hr2 with hr1 | hr1
        · rcases List.mem_or_eq_of_mem_set hr1 with hr0 | hr0
          · exact hall r hr0
          · subst hr0
            exact hall rlov hrlovmem
        · subst hr1
          exact hd1
      · subst hr2
        have : 1 ≤ rwv.num_dice := hall rwv hrwvmem
        simp only [hrw3]
        omega
    · intro _
      refine ⟨hd1, hdlt, ?_⟩
      simp only [hrw3, hrlo2, hsw]
  · -- the winner keeps a single die: only the owner changes
    have hrun : resolveWin l w lo t = some (l.set lo.id { rlov with owner := w.owner }, t) := by
      unfold resolveWin
      rw [hso]
      dsimp only
      rw [if_neg hd]
    have hlw : (l.set lo.id { rlov with owner := w.owner }).get? w.id = some rwv := by
      rw [List.get?_set_ne _ _ (Ne.symm hne), hrw]
    have hllo : (l.set lo.id { rlov with owner := w.owner }).get? lo.id =
        some { rlov with owner := w.owner } := List.get?_set_eq_of_lt _ hlo
    refine ⟨_, t, hrun, by rw [List.length_set], ?_, rwv, _, hlw, hllo, rfl, fun h => absurd h hd⟩
    intro r hr
    rcases List.mem_or_eq_of_mem_set hr with hr0 | hr0
    · exact hall r hr0
    · subst hr0
      exact hall rlov hrlovmem

/-- C1. Clash resolution: processing a clash-end with sums
`(dice_1_sum, dice_2_sum)`: when the attacker's sum is strictly greater the
defending region's owner becomes the attacker's owner, and if the attacker's
snapshot had more than one die the captured region's new dice count lies in
`[1, attacker.num_dice)` while the attacker's origin region loses (captured
count - 1) dice; otherwise (ties favor the defender) the roles invert
symmetrically under the same dice-split rule; in both branches every
region's dice count stays at least 1.  Hypotheses: both event ids index the
region list and are distinct, the board entries still carry the snapshots'
dice counts (they do in the source: the snapshots are taken at clash start
and no other mutation intervenes), and every dice count starts at least
1. -/
theorem clash_resolution (b : Board) (e : ClashEnd) (t : Tape)
    (h1 : e.region1.id < b.regions.length) (h2 : e.region2.id < b.regions.length)
    (hne : e.region1.id ≠ e.region2.id)
    (rv1 : Region) (hg1 : b.regions.get? e.region1.id = some rv1)
    (hs1 : rv1.num_dice = e.region1.num_dice)
    (rv2 : Region) (hg2 : b.regions.get? e.region2.id = some rv2)
    (hs2 : rv2.num_dice = e.region2.num_dice)
    (hall : ∀ r ∈ b.regions, 1 ≤ r.num_dice) :
    ∃ b1 t1, clashEndStep b e t = some (b1, t1) ∧
      b1.hexes = b.hexes ∧
      b1.regions.length = b.regions.length ∧
      (∀ r ∈ b1.regions, 1 ≤ r.num_dice) ∧
      (e.dice_1_sum > e.dice_2_sum →
        ∃ r1n r2n, b1.regions.get? e.region1.id = some r1n ∧
          b1.regions.get? e.region2.id = some r2n ∧
          r2n.owner = e.region1.owner ∧
          (e.region1.num_dice > 1 →
            1 ≤ r2n.num_dice ∧ r2n.num_dice < e.region1.num_dice ∧
            r1n.num_dice = e.region1.num_dice - (r2n.num_dice - 1))) ∧
      (¬ e.dice_1_sum > e.dice_2_sum →
        ∃ r1n r2n, b1.regions.get? e.region1.id = some r1n ∧
          b1.regions.get? e.region2.id = some r2n ∧
          r1n.owner = e.region2.owner ∧
          (e.region2.num_dice > 1 →
            1 ≤ r1n.num_dice ∧ r1n.num_dice < e.region2.num_dice ∧
            r2n.num_dice = e.region2.num_dice - (r1n.num_dice - 1))) := by
  by_cases hsum : e.dice_1_sum > e.dice_2_sum
  · obtain ⟨l3, t3, hrun, hlen, hmin, rwn, rlon, hgw, hglo, hown, hsplit⟩ :=
      resolveWin_spec b.regions e.region1 e.region2 t h1 h2 hne rv1 hg1 hs1 hall
    refine ⟨{ b with regions := l3 }, t3, ?_, rfl, hlen, hmin, ?_, fun h => absurd hsum h⟩
    · unfold clashEndStep
      rw [if_pos hsum, hrun]
      rfl
    · intro _
      exact ⟨rwn, rlon, hgw, hglo, hown, hsplit⟩
  · obtain ⟨l3, t3, hrun, hlen, hmin, rwn, rlon, hgw, hglo, hown, hsplit⟩ :=
      resolveWin_spec b.regions e.region2 e.region1 t h2 h1 (Ne.symm hne) rv2 hg2 hs2 hall
    refine ⟨{ b with regions := l3 }, t3, ?_, rfl, hlen, hmin, fun h => absurd h hsum, ?_⟩
    · unfold clashEndStep
      rw [if_neg hsum, hrun]
      rfl
    · intro _
      exact ⟨rlon, rwn, hglo, hgw, hown, hsplit⟩

/-- Witness for C1: on the sample board, `rA` (3 dice) beats `rB` 5 to 2 with
the all-zero thread tape; the captured region gets 1 die and the attacker
keeps 3. -/
theorem clash_resolution_witness :
    ∃ b1 t1, clashEndStep bAB eAB tape0 = some (b1, t1) ∧
      b1.hexes = bAB.hexes ∧
      b1.regions.length = bAB.regions.length ∧
      (∀ r ∈ b1.regions, 1 ≤ r.num_dice) ∧
      (eAB.dice_1_sum > eAB.dice_2_sum →
        ∃ r1n r2n, b1.regions.get? eAB.region1.id = some r1n ∧
          b1.regions.get? eAB.region2.id = some r2n ∧
          r2n.owner = eAB.region1.owner ∧
          (eAB.region1.num_dice > 1 →
            1 ≤ r2n.num_dice ∧ r2n.num_dice < eAB.region1.num_dice ∧
            r1n.num_dice = eAB.region1.num_dice - (r2n.num_dice - 1))) ∧
      (¬ eAB.dice_1_sum > eAB.dice_2_sum →
        ∃ r1n r2n, b1.regions.get? eAB.region1.id = some r1n ∧
          b1.regions.get? eAB.region2.id = some r2n ∧
          r1n.owner = eAB.region2.owner ∧
          (eAB.region2.num_dice > 1 →
            1 ≤ r1n.num_dice ∧ r1n.num_dice < eAB.region2.num_dice ∧
            r2n.num_dice = eAB.region2.num_dice - (r1n.num_dice - 1))) :=
  clash_resolution bAB eAB tape0 (by decide) (by decide) (by decide)
    rA (by decide) (by decide) rB (by decide) (by decide) (by decide)

/-- C10. One-die winner leaves dice unchanged: in either branch of
`event_region_clash_end`, when the winning side's snapshot has exactly one
die the only mutation is the losing region's `owner` field; both dice
counts stay as they were (the captured region keeps its pre-clash count)
and no random draw is consumed. -/
theorem one_die_winner_frame (b : Board) (e : ClashEnd) (t : Tape) :
    (e.dice_1_sum > e.dice_2_sum → e.region1.num_dice = 1 →
      ∀ rl, b.regions.get? e.region2.id = some rl →
        clashEndStep b e t =
          some ({ b with regions :=
            b.regions.set e.region2.id { rl with owner := e.region1.owner } }, t)) ∧
    (¬ e.dice_1_sum > e.dice_2_sum → e.region2.num_dice = 1 →
      ∀ rl, b.regions.get? e.region1.id = some rl →
        clashEndStep b e t =
          some ({ b with regions :=
            b.regions.set e.region1.id { rl with owner := e.region2.owner } }, t)) := by
  constructor
  · intro hgt h1 rl hrl
    simp only [clashEndStep, if_pos hgt, resolveWin, setOwner, hrl, h1]
    simp
  · intro hle h1 rl hrl
    simp only [clashEndStep, if_neg hle, resolveWin, setOwner, hrl, h1]
    simp

/-- Witness for C10: a one-die attacker winning 4 to 1 only recolors the
defender. -/
theorem one_die_winner_frame_witness :
    clashEndStep bCB eCB tape0 =
      some ({ bCB with regions :=
        bCB.regions.set eCB.region2.id ({ rB with owner := eCB.region1.owner }) }, tape0) := by
  exact (one_die_winner_frame bCB eCB tape0).1 (by decide) (by decide) rB (by decide)

/-- Helper: a successful system run determines the resulting state, the
game-over signal and the redraw flag from the event-fold result. -/
theorem clashEndSystem_state_eq (gs : GameState) (events : List ClashEnd) (t : Tape)
    (res : SysResult) (hrun : clashEndSystem gs events t = some res) :
    ∃ b1 t1, clashEndFold gs.board events t = some (b1, t1) ∧
      res.state = advanceTurn { gs with board := b1 } ∧
      res.game_over = winCheck res.state.board ∧
      (res.game_over.isSome → res.redraw = false) := by
  unfold clashEndSystem at hrun
  cases hf : clashEndFold gs.board events t with
  | none =>
    rw [hf] at hrun
    exact absurd hrun (by simp)
  | some p =>
    obtain ⟨b1, t1⟩ := p
    rw [hf] at hrun
    dsimp only at hrun
    refine ⟨b1, t1, rfl, ?_⟩
    cases hw : winCheck (advanceTurn { gs with board := b1 }).board with
    | none =>
      rw [hw] at hrun
      obtain rfl : (⟨advanceTurn { gs with board := b1 }, none,
          decide (events.length > 0)⟩ : SysResult) = res := Option.some.inj hrun
      exact ⟨rfl, by rw [hw], by intro h; simp at h⟩
    | some w =>
      rw [hw] at hrun
      obtain rfl : (⟨advanceTurn { gs with board := b1 }, some w, false⟩ : SysResult) = res :=
        Option.some.inj hrun
      exact ⟨rfl, by rw [hw], fun _ => rfl⟩

/-- C5. Turn advance: after a system run that resolves exactly one clash,
the turn advances (player incremented modulo the player count, counter
incremented) if and only if the set of the acting player's regions that have
not yet acted this turn (no matching `region_1` in a log entry stamped with
the current counters) and still have an opponent region on the post-clash
board is empty; otherwise both counters are unchanged. -/
theorem turn_advance_iff (gs : GameState) (e : ClashEnd) (t : Tape)
    (b1 : Board) (t1 : Tape) (res : SysResult)
    (_hn : 1 ≤ gs.number_of_players) (htp : gs.turn_of_player < gs.number_of_players)
    (hstep : clashEndStep gs.board e t = some (b1, t1))
    (hrun : clashEndSystem gs [e] t = some res) :
    ((unblockedRegions { gs with board := b1 }).length = 0 ↔
      (res.state.turn_of_player = (gs.turn_of_player + 1) % gs.number_of_players ∧
        res.state.turn_counter = gs.turn_counter + 1)) ∧
    ((unblockedRegions { gs with board := b1 }).length ≠ 0 →
      res.state.turn_of_player = gs.turn_of_player ∧
      res.state.turn_counter = gs.turn_counter) := by
  obtain ⟨b1', t1', hf, hstate, _, _⟩ := clashEndSystem_state_eq gs [e] t res hrun
  have hfold : clashEndFold gs.board [e] t = some (b1, t1) := by
    unfold clashEndFold
    rw [hstep]
    rfl
  rw [hfold] at hf
  obtain ⟨hb, -⟩ : b1 = b1' ∧ t1 = t1' := by
    have := Option.some.inj hf
    exact ⟨congrArg Prod.fst this, congrArg Prod.snd this⟩
  subst hb
  set gs1 : GameState := { gs with board := b1 } with hgs1
  have htp1 : gs1.turn_of_player = gs.turn_of_player := rfl
  have htc1 : gs1.turn_counter = gs.turn_counter := rfl
  by_cases hemp : (unblockedRegions gs1).length = 0
  · have hadv : res.state = { gs1 with
        turn_of_player := if gs.turn_of_player + 1 ≥ gs.number_of_players then 0
          else gs.turn_of_player + 1,
        turn_counter := gs.turn_counter + 1 } := by
      rw [hstate]
      unfold advanceTurn
      rw [if_pos hemp]
    have hmod : (if gs.turn_of_player + 1 ≥ gs.number_of_players then 0
        else gs.turn_of_player + 1) = (gs.turn_of_player + 1) % gs.number_of_players := by
      by_cases hge : gs.turn_of_player + 1 ≥ gs.number_of_players
      · have : gs.turn_of_player + 1 = gs.number_of_players := by omega
        rw [if_pos hge, this, Nat.mod_self]
      · rw [if_neg hge, Nat.mod_eq_of_lt (by omega)]
    constructor
    · refine iff_of_true hemp ⟨?_, ?_⟩
      · rw [hadv, ← hmod]
      · rw [hadv]
    · intro h
      exact absurd hemp h
  · have hsame : res.state = gs1 := by
      rw [hstate]
      unfold advanceTurn
      rw [if_neg hemp]
    constructor
    · refine iff_of_false hemp ?_
      rintro ⟨-, hc⟩
      rw [hsame, htc1] at hc
      omega
    · intro _
      rw [hsame]
      exact ⟨htp1, htc1⟩




/-- Witness for C5 on the sample state: after `rA` captures `rB` every
region belongs to player 0, so no region has an opponent left, the
able-to-move set is empty and the turn advances. -/
theorem turn_advance_iff_witness :
    ((unblockedRegions { gs5 with board := step5.1 }).length = 0 ↔
      (res5.state.turn_of_player = (gs5.turn_of_player + 1) % gs5.number_of_players ∧
        res5.state.turn_counter = gs5.turn_counter + 1)) ∧
    ((unblockedRegions { gs5 with board := step5.1 }).length ≠ 0 →
      res5.state.turn_of_player = gs5.turn_of_player ∧
      res5.state.turn_counter = gs5.turn_counter) :=
  turn_advance_iff gs5 eAB tape0 step5.1 step5.2 res5 (by decide) (by decide)
    (by rfl) (by decide)

/-- Helper: `winCheck` emits exactly the owner that holds every region of a
non-empty board. -/
theorem winCheck_eq_some_iff (b : Board) (p : Nat) :
    winCheck b = some p ↔ (b.regions ≠ [] ∧ ∀ r ∈ b.regions, r.owner = p) := by
  constructor
  · intro h
    have hmem := List.mem_of_find?_eq_some h
    have hpred := List.find?_some h
    simp only [decide_eq_true_eq] at hpred
    have hfl : (b.regions.filter (fun r => decide (r.owner = p))) = b.regions :=
      List.Sublist.eq_of_length (List.filter_sublist _) hpred
    have hall : ∀ r ∈ b.regions, r.owner = p := by
      intro r hr
      have := List.filter_eq_self.mp hfl r hr
      simpa using this
    refine ⟨?_, hall⟩
    intro hnil
    rw [hnil] at hmem
    simp at hmem
  · rintro ⟨hne, hall⟩
    cases hr : b.regions with
    | nil => exact absurd hr hne
    | cons r rest =>
      have hro : r.owner = p := hall r (by rw [hr]; exact List.mem_cons_self r rest)
      subst hro
      have hfl : (b.regions.filter (fun s => decide (s.owner = r.owner))) = b.regions :=
        List.filter_eq_self.mpr (fun s hs => by simpa using hall s hs)
      have hlen : (b.regions.filter (fun s => decide (s.owner = r.owner))).length
          = b.regions.length := by rw [hfl]
      have hmap : b.regions.map (fun s => s.owner)
          = r.owner :: rest.map (fun s => s.owner) := by rw [hr]; rfl
      unfold winCheck countOwner
      rw [hmap, List.find?_cons]
      simp [hlen]


/-- Counterexample for C6.  The `event_region_clash_end` system runs every
frame and neither latches the game-over signal nor halts turn processing:
on `gsW`, resolving the final clash makes player 0 own both regions and the
run emits game-over for player 0 with `turn_counter` advanced to 1 — and the
very next run (with no clash pending) emits game-over for player 0 again and
advances `turn_counter` once more, so the signal is not emitted exactly once
and turn processing continues after it. -/
theorem game_over_not_terminal :
    ((clashEndSystem gsW [eAB] tape0).map
      (fun r => (r.game_over, r.state.turn_counter)) = some (some 0, 1)) ∧
    (((clashEndSystem gsW [eAB] tape0).bind
        (fun r1 => clashEndSystem r1.state [] tape0)).map
      (fun r => (r.game_over, r.state.turn_counter)) = some (some 0, 2)) := by
  decide

/-- C6 amended: whenever a system run of `event_region_clash_end` ends with
one owner holding every region of a non-empty board, that run emits the
game-over signal carrying that owner and skips the board redraw; conversely
an emitted signal names an owner holding every region.  The signal is not
latched: nothing prevents later runs from emitting it again (see the
counterexample), so emission is per-run, not once per game. -/
theorem game_over_signal (gs : GameState) (events : List ClashEnd) (t : Tape)
    (res : SysResult) (hrun : clashEndSystem gs events t = some res) :
    (∀ p, res.state.board.regions ≠ [] →
      (∀ r ∈ res.state.board.regions, r.owner = p) →
      res.game_over = some p ∧ res.redraw = false) ∧
    (∀ p, res.game_over = some p → ∀ r ∈ res.state.board.regions, r.owner = p) := by
  obtain ⟨b1, t1, -, -, hgo, hrd⟩ := clashEndSystem_state_eq gs events t res hrun
  constructor
  · intro p hne hall
    have hw : winCheck res.state.board = some p := (winCheck_eq_some_iff _ p).mpr ⟨hne, hall⟩
    have hg : res.game_over = some p := by rw [hgo, hw]
    exact ⟨hg, hrd (by rw [hg]; rfl)⟩
  · intro p hg
    have hw : winCheck res.state.board = some p := by rw [← hgo, hg]
    exact ((winCheck_eq_some_iff _ p).mp hw).2


/-- Witness for the amended C6 on the sample state: after the final capture
player 0 owns both regions, the run emits game-over for player 0 and skips
the redraw. -/
theorem game_over_signal_witness :
    (∀ p, resW.state.board.regions ≠ [] →
      (∀ r ∈ resW.state.board.regions, r.owner = p) →
      resW.game_over = some p ∧ resW.redraw = false) ∧
    (∀ p, resW.game_over = some p → ∀ r ∈ resW.state.board.regions, r.owner = p) :=
  game_over_signal gsW [eAB] tape0 resW (by decide)

/-- Helper: hex adjacency is symmetric (the six directions are closed under
negation). -/
theorem Adj.symm (a b : Coord) (h : Adj a b) : Adj b a := by
  unfold Adj neighbors hexDirections at *
  simp only [List.mem_map, List.mem_cons, List.not_mem_nil, or_false] at *
  obtain ⟨d, hd, he⟩ := h
  obtain ⟨a1, a2⟩ := a
  obtain ⟨b1, b2⟩ := b
  simp only [Prod.mk.injEq] at he
  obtain ⟨h1, h2⟩ := he
  rcases hd with h | h | h | h | h | h <;> subst h <;> simp only at h1 h2
  · exact ⟨(-1, 0), by decide, by simp only [Prod.mk.injEq]; constructor <;> omega⟩
  · exact ⟨(-1, 1), by decide, by simp only [Prod.mk.injEq]; constructor <;> omega⟩
  · exact ⟨(0, 1), by decide, by simp only [Prod.mk.injEq]; constructor <;> omega⟩
  · exact ⟨(1, 0), by decide, by simp only [Prod.mk.injEq]; constructor <;> omega⟩
  · exact ⟨(1, -1), by decide, by simp only [Prod.mk.injEq]; constructor <;> omega⟩
  · exact ⟨(0, -1), by decide, by simp only [Prod.mk.injEq]; constructor <;> omega⟩

/-- Helper: lookup after insert. -/
theorem hmGet_insert (m : HexMap) (c : Coord) (p : Nat) (x : Coord) :
    hmGet (hmInsert m c p) x = if c = x then some p else hmGet m x := rfl

/-- Helper: `pickAt` returns a member and a sublist of members. -/
theorem pickAt_mem (l : List Coord) (n : Nat) (y : Coord) (ys : List Coord)
    (h : pickAt l n = some (y, ys)) : y ∈ l ∧ ∀ z ∈ ys, z ∈ l := by
  induction l generalizing n y ys with
  | nil => simp [pickAt] at h
  | cons x xs ih =>
    cases n with
    | zero =>
      obtain ⟨rfl, rfl⟩ : x = y ∧ xs = ys := by
        simpa [pickAt] using h
      exact ⟨List.mem_cons_self _ _, fun z hz => List.mem_cons_of_mem _ hz⟩
    | succ n =>
      simp only [pickAt, Option.map_eq_some'] at h
      obtain ⟨⟨y1, ys1⟩, hrec, heq⟩ := h
      obtain ⟨heq1, heq2⟩ : y1 = y ∧ x :: ys1 = ys := by
        simpa using heq
      subst heq1
      subst heq2
      obtain ⟨hy, hsub⟩ := ih n y1 ys1 hrec
      refine ⟨List.mem_cons_of_mem _ hy, ?_⟩
      intro z hz
      rcases List.mem_cons.mp hz with rfl | hz
      · exact List.mem_cons_self _ _
      · exact List.mem_cons_of_mem _ (hsub z hz)

/-- Helper: `permuteAux` only reorders: members come from the input. -/
theorem permuteAux_mem (fuel : Nat) (t : Tape) (l : List Coord) (x : Coord)
    (h : x ∈ (permuteAux fuel t l).1) : x ∈ l := by
  induction fuel generalizing t l with
  | zero => simpa [permuteAux] using h
  | succ fuel ih =>
    match l with
    | [] => simp [permuteAux] at h
    | a :: as =>
      rw [permuteAux] at h
      dsimp only at h
      cases hp : pickAt (a :: as) (t.draw.1 % (a :: as).length) with
      | none =>
        rw [hp] at h
        exact h
      | some p =>
        obtain ⟨y, ys⟩ := p
        rw [hp] at h
        dsimp only at h
        obtain ⟨hy, hsub⟩ := pickAt_mem _ _ _ _ hp
        rcases List.mem_cons.mp h with rfl | h
        · exact hy
        · exact hsub x (ih _ ys h)

/-- Helper: `findGrowHex` returns a member of the scanned list. -/
theorem findGrowHex_mem (snap : HexMap) (l : List Coord) (c : Coord)
    (h : findGrowHex snap l = some c) : c ∈ l := by
  induction l with
  | nil => simp [findGrowHex] at h
  | cons a as ih =>
    rw [findGrowHex] at h
    by_cases ha : hasFreeNeighbor snap a
    · rw [if_pos ha] at h
      exact (Option.some.inj h) ▸ List.mem_cons_self _ _
    · rw [if_neg ha] at h
      exact List.mem_cons_of_mem _ (ih h)

/-- Helper: a free candidate is an adjacent hex absent from the snapshot. -/
theorem freeCandidates_spec (snap : HexMap) (hex c : Coord)
    (h : c ∈ freeCandidates snap hex) : Adj hex c ∧ hmGet snap c = none := by
  unfold freeCandidates at h
  obtain ⟨hmem, hfree⟩ := List.mem_filter.mp h
  refine ⟨hmem, ?_⟩
  simpa [Option.isNone_iff_eq_none] using hfree

/-- Helper: connectivity is stable under appending a hex adjacent to a
member. -/
theorem ConnectedL.snoc (l : List Coord) (a c : Coord)
    (h : ConnectedL l) (ha : a ∈ l) (hadj : Adj a c) : ConnectedL (l ++ [c]) := by
  have hmono : ∀ x y, Steps l x y → Steps (l ++ [c]) x y := by
    intro x y hxy
    refine Relation.ReflTransGen.mono ?_ hxy
    rintro u v ⟨hv, huv⟩
    exact ⟨List.mem_append_left _ hv, huv⟩
  have hc : c ∈ l ++ [c] := List.mem_append_right _ (List.mem_singleton.mpr rfl)
  have hstep_to_c : ∀ x ∈ l, Steps (l ++ [c]) x c := by
    intro x hx
    exact Relation.ReflTransGen.tail (hmono x a (h x hx a ha)) ⟨hc, hadj⟩
  intro x hx y hy
  rcases List.mem_append.mp hx with hx1 | hx1
  · rcases List.mem_append.mp hy with hy1 | hy1
    · exact hmono x y (h x hx1 y hy1)
    · rw [List.mem_singleton.mp hy1]
      exact hstep_to_c x hx1
  · rw [List.mem_singleton.mp hx1]
    rcases List.mem_append.mp hy with hy1 | hy1
    · refine Relation.ReflTransGen.head ⟨List.mem_append_left _ ha, Adj.symm a c hadj⟩ ?_
      exact hmono a y (h a ha y hy1)
    · rw [List.mem_singleton.mp hy1]
      exact Relation.ReflTransGen.refl

/-- Helper: one growth step preserves the patch invariant. -/
theorem GrowInv.step (m : HexMap) (player : Nat) (patch : List Coord) (snap : HexMap)
    (hex c : Coord) (hinv : GrowInv m player patch snap)
    (hhex : hex ∈ patch) (hadj : Adj hex c) (hfree : hmGet snap c = none) :
    GrowInv m player (patch ++ [c]) (hmInsert snap c player) := by
  have hcm : hmGet m c = none := by
    cases hm : hmGet m c with
    | none => rfl
    | some p => rw [hinv.ext c p hm] at hfree; exact absurd hfree (by simp)
  refine ⟨?_, ?_, ?_, ?_, ?_, ?_⟩
  · intro x p hx
    rw [hmGet_insert]
    split
    · next heq => rw [← heq, hcm] at hx; exact absurd hx (by simp)
    · exact hinv.ext x p hx
  · intro x p hx
    rw [hmGet_insert] at hx
    split at hx
    · next heq =>
      refine Or.inr ⟨?_, (Option.some.inj hx).symm⟩
      rw [← heq]
      exact List.mem_append_right _ (List.mem_singleton.mpr rfl)
    · rcases hinv.newKeys x p hx with h | ⟨hx1, hx2⟩
      · exact Or.inl h
      · exact Or.inr ⟨List.mem_append_left _ hx1, hx2⟩
  · intro x hx
    rw [hmGet_insert]
    rcases List.mem_append.mp hx with hx1 | hx1
    · split
      · rfl
      · exact hinv.patchMapped x hx1
    · rw [List.mem_singleton.mp hx1]
      simp
  · intro x hx
    rcases List.mem_append.mp hx with hx1 | hx1
    · exact hinv.patchFresh x hx1
    · rw [List.mem_singleton.mp hx1]
      exact hcm
  · simp
  · exact ConnectedL.snoc patch hex c hinv.conn hhex hadj

/-- Helper: the growth loop preserves the patch invariant. -/
theorem growPatch_inv (steps : Nat) (t : Tape) (patch : List Coord) (snap : HexMap)
    (player : Nat) (m : HexMap) (patch2 : List Coord) (snap2 : HexMap) (t2 : Tape)
    (hinv : GrowInv m player patch snap)
    (hrun : growPatch steps t patch snap player = some (patch2, snap2, t2)) :
    GrowInv m player patch2 snap2 := by
  induction steps generalizing t patch snap with
  | zero =>
    obtain ⟨rfl, rfl, rfl⟩ : patch = patch2 ∧ snap = snap2 ∧ t = t2 := by
      simpa [growPatch] using hrun
    exact hinv
  | succ steps ih =>
    rw [growPatch] at hrun
    dsimp only at hrun
    cases hf : findGrowHex snap (permute t patch).1 with
    | none =>
      rw [hf] at hrun
      obtain ⟨rfl, rfl, -⟩ : patch = patch2 ∧ snap = snap2 ∧ (permute t patch).2 = t2 := by
        simpa using hrun
      exact hinv
    | some hex =>
      rw [hf] at hrun
      dsimp only at hrun
      have hhex : hex ∈ patch :=
        permuteAux_mem _ _ _ hex (findGrowHex_mem snap _ hex hf)
      cases hcl : freeCandidates snap hex with
      | nil => rw [hcl] at hrun; exact absurd hrun (by simp)
      | cons c0 cs =>
        rw [hcl] at hrun
        dsimp only at hrun
        cases hp : pickAt (c0 :: cs) ((permute t patch).2.draw.1 % (c0 :: cs).length) with
        | none => rw [hp] at hrun; exact absurd hrun (by simp)
        | some pr =>
          obtain ⟨c, rest⟩ := pr
          rw [hp] at hrun
          dsimp only at hrun
          have hcmem : c ∈ freeCandidates snap hex := by
            rw [hcl]
            exact (pickAt_mem _ _ _ _ hp).1
          obtain ⟨hadj, hfree⟩ := freeCandidates_spec snap hex c hcmem
          exact ih _ _ _ (GrowInv.step m player patch snap hex c hinv hhex hadj hfree) hrun

/-- Helper: committing a grown patch preserves the generation invariant. -/
theorem GenInv.commit (n : Nat) (b : Board) (player : Nat) (patch : List Coord)
    (snap : HexMap) (hp : player < n) (hbinv : GenInv n b)
    (hg : GrowInv b.hexes player patch snap) :
    GenInv n ⟨snap, b.regions ++ [⟨patch, player, 0, b.regions.length⟩]⟩ := by
  refine ⟨?_, ?_, ?_, ?_, ?_, ?_⟩
  · intro r hr c hc
    rcases List.mem_append.mp hr with hr1 | hr1
    · exact hg.ext c r.owner (hbinv.mapped r hr1 c hc)
    · rw [List.mem_singleton.mp hr1] at hc ⊢
      exact hg.patchMapped c hc
  · intro c p hc
    rcases hg.newKeys c p hc with h | ⟨h, -⟩
    · obtain ⟨r, hr, hcr⟩ := hbinv.covered c p h
      exact ⟨r, List.mem_append_left _ hr, hcr⟩
    · exact ⟨_, List.mem_append_right _ (List.mem_singleton.mpr rfl), h⟩
  · refine List.pairwise_append.mpr ⟨hbinv.disj, List.pairwise_singleton _ _, ?_⟩
    intro r hr s hs c hcr
    rw [List.mem_singleton.mp hs]
    intro hcs
    have h1 : hmGet b.hexes c = some r.owner := hbinv.mapped r hr c hcr
    have h2 : hmGet b.hexes c = none := hg.patchFresh c hcs
    rw [h2] at h1
    exact absurd h1 (by simp)
  · intro i r hi
    by_cases hlt : i < b.regions.length
    · rw [List.get?_append hlt] at hi
      exact hbinv.ids i r hi
    · rw [List.get?_append_right (by omega)] at hi
      cases hd : i - b.regions.length with
      | zero =>
        rw [hd] at hi
        have : i = b.regions.length := by omega
        rw [← (Option.some.inj hi)]
        exact this.symm
      | succ k =>
        rw [hd] at hi
        simp at hi
  · intro r hr
    rcases List.mem_append.mp hr with hr1 | hr1
    · exact hbinv.owners r hr1
    · rw [List.mem_singleton.mp hr1]
      exact hp
  · intro r hr
    rcases List.mem_append.mp hr with hr1 | hr1
    · exact hbinv.conn r hr1
    · rw [List.mem_singleton.mp hr1]
      exact ⟨hg.nonempty, hg.conn⟩

/-- Helper: one patch attempt loop preserves the generation invariant. -/
theorem genPatch_inv (n : Nat) (fuel : Nat) :
    ∀ (b : Board) (player : Nat) (first : Bool) (psize : Nat) (t : Tape)
      (b2 : Board) (t2 : Tape), player < n → GenInv n b →
      genPatch fuel b player first psize t = some (b2, t2) → GenInv n b2 := by
  induction fuel with
  | zero =>
    intro b player first psize t b2 t2 _ _ hrun
    simp [genPatch] at hrun
  | succ fuel ih =>
    intro b player first psize t b2 t2 hp hbinv hrun
    rw [genPatch] at hrun
    rcases hdc : drawCoord t with ⟨c0, t1⟩
    rw [hdc] at hrun
    dsimp only at hrun
    by_cases hocc : (hmGet b.hexes c0).isSome
    · rw [if_pos hocc] at hrun
      exact ih b player first psize t1 b2 t2 hp hbinv hrun
    · rw [if_neg hocc] at hrun
      have hfree : hmGet b.hexes c0 = none := by
        cases hmm : hmGet b.hexes c0 with
        | none => rfl
        | some p => rw [hmm] at hocc; exact absurd rfl hocc
      have hginit : GrowInv b.hexes player [c0] (hmInsert b.hexes c0 player) := by
        refine ⟨?_, ?_, ?_, ?_, by simp, ?_⟩
        · intro x p hx
          rw [hmGet_insert]
          split
          · next heq => rw [← heq, hfree] at hx; exact absurd hx (by simp)
          · exact hx
        · intro x p hx
          rw [hmGet_insert] at hx
          split at hx
          · next heq =>
            exact Or.inr ⟨by rw [← heq]; exact List.mem_singleton.mpr rfl,
              (Option.some.inj hx).symm⟩
          · exact Or.inl hx
        · intro x hx
          rw [List.mem_singleton.mp hx, hmGet_insert, if_pos rfl]
        · intro x hx
          rw [List.mem_singleton.mp hx]
          exact hfree
        · intro a ha x hx
          rw [List.mem_singleton.mp ha, List.mem_singleton.mp hx]
          exact Relation.ReflTransGen.refl
      cases hgrow : growPatch psize t1 [c0] (hmInsert b.hexes c0 player) player with
      | none =>
        rw [hgrow] at hrun
        exact absurd hrun (by simp)
      | some res =>
        obtain ⟨patch, snap, t3⟩ := res
        rw [hgrow] at hrun
        dsimp only at hrun
        have hginv : GrowInv b.hexes player patch snap :=
          growPatch_inv psize t1 [c0] (hmInsert b.hexes c0 player) player
            b.hexes patch snap t3 hginit hgrow
        by_cases hone : patch.length = 1
        · rw [if_pos hone] at hrun
          obtain ⟨rfl, -⟩ : b = b2 ∧ t3 = t2 := by
            have := Option.some.inj hrun
            exact ⟨congrArg Prod.fst this, congrArg Prod.snd this⟩
          exact hbinv
        · rw [if_neg hone] at hrun
          by_cases htouch : (first || patch.any (fun h =>
              (neighbors h).any (fun nb => (hmGet b.hexes nb).isSome))) = true
          · rw [if_pos htouch] at hrun
            obtain ⟨heq, -⟩ : ({ hexes := snap, regions := b.regions ++
                [{ hexes := patch, owner := player, num_dice := 0,
                   id := b.regions.length }] } : Board) = b2 ∧ t3 = t2 := by
              have := Option.some.inj hrun
              exact ⟨congrArg Prod.fst this, congrArg Prod.snd this⟩
            rw [← heq]
            exact GenInv.commit n b player patch snap hp hbinv hginv
          · rw [if_neg htouch] at hrun
            exact ih b player first psize t3 b2 t2 hp hbinv hrun

/-- Helper: the patch/player fold preserves the generation invariant. -/
theorem genBoardLoop_inv (n : Nat) (fuel psize : Nat) :
    ∀ (pairs : List (Nat × Nat)) (b : Board) (t : Tape) (b2 : Board) (t2 : Tape),
      (∀ pq ∈ pairs, pq.2 < n) → GenInv n b →
      genBoardLoop fuel psize pairs b t = some (b2, t2) → GenInv n b2 := by
  intro pairs
  induction pairs with
  | nil =>
    intro b t b2 t2 _ hbinv hrun
    obtain ⟨rfl, -⟩ : b = b2 ∧ t = t2 := by
      simpa [genBoardLoop] using hrun
    exact hbinv
  | cons pq rest ih =>
    intro b t b2 t2 hmem hbinv hrun
    rw [genBoardLoop] at hrun
    cases hg : genPatch fuel b pq.2 (decide (pq.1 = 0) && decide (pq.2 = 0)) psize t with
    | none => rw [hg] at hrun; exact absurd hrun (by simp)
    | some res =>
      obtain ⟨b1, t1⟩ := res
      rw [hg] at hrun
      have h1 : GenInv n b1 :=
        genPatch_inv n fuel b pq.2 _ psize t b1 t1
          (hmem pq (List.mem_cons_self _ _)) hbinv hg
      exact ih b1 t1 b2 t2 (fun q hq => hmem q (List.mem_cons_of_mem _ hq)) h1 hrun

/-- Helper: the empty board satisfies the generation invariant. -/
theorem GenInv.empty (n : Nat) : GenInv n ⟨[], []⟩ := by
  refine ⟨?_, ?_, ?_, ?_, ?_, ?_⟩
  · intro r hr
    simp at hr
  · intro c p hc
    simp [hmGet] at hc
  · exact List.Pairwise.nil
  · intro i r hi
    simp at hi
  · intro r hr
    simp at hr
  · intro r hr
    simp at hr

/-- Helper: every pair of the patch/player iteration has a player index below
the player count. -/
theorem pairsList_owners (n : Nat) : ∀ pq ∈ pairsList n, pq.2 < n := by
  intro pq hpq
  unfold pairsList at hpq
  simp only [List.mem_flatMap, List.mem_map, List.mem_range] at hpq
  obtain ⟨patch, -, player, hplayer, rfl⟩ := hpq
  exact hplayer

/-- Helper: dice allocation only writes `num_dice`: length, footprints,
owners and ids are preserved pointwise. -/
theorem allocDice_shape (l : List Region) :
    ∀ (budget : Nat → Nat) (t : Tape) (l2 : List Region) (t2 : Tape),
      allocDice l budget t = some (l2, t2) →
      l2.length = l.length ∧
      ∀ i, (l2.get? i).map (fun r => (r.hexes, r.owner, r.id)) =
           (l.get? i).map (fun r => (r.hexes, r.owner, r.id)) := by
  induction l with
  | nil =>
    intro budget t l2 t2 h
    obtain ⟨rfl, -⟩ : l2 = [] ∧ t2 = t := by
      simpa [allocDice, eq_comm] using h
    exact ⟨rfl, fun i => rfl⟩
  | cons r rest ih =>
    intro budget t l2 t2 h
    rw [allocDice] at h
    dsimp only [Tape.draw] at h
    split at h
    · exact absurd h (by simp)
    · split at h
      · exact absurd h (by simp)
      · next rest1 t3 heq =>
        obtain ⟨hl2, -⟩ : ({ r with num_dice := _ } :: rest1 = l2) ∧ t3 = t2 := by
          have := Option.some.inj h
          exact ⟨congrArg Prod.fst this, congrArg Prod.snd this⟩
        obtain ⟨hlen, hpt⟩ := ih _ _ _ _ heq
        subst hl2
        refine ⟨by simpa using hlen, ?_⟩
        intro i
        cases i with
        | zero => rfl
        | succ i => exact hpt i

/-- Helper: each allocated dice count is at least 1 and strictly below
`min 4 (remaining budget of its owner at its allocation step)`, the budget
being decremented in creation order. -/
theorem allocDice_bounds (l : List Region) :
    ∀ (budget : Nat → Nat) (t : Tape) (l2 : List Region) (t2 : Tape),
      allocDice l budget t = some (l2, t2) →
      ∀ k r, l2.get? k = some r →
        1 ≤ r.num_dice ∧
        r.num_dice < min 4 (budget r.owner - spentBefore l2 k r.owner) := by
  induction l with
  | nil =>
    intro budget t l2 t2 h k r hk
    obtain ⟨rfl, -⟩ : l2 = [] ∧ t2 = t := by
      simpa [allocDice, eq_comm] using h
    simp at hk
  | cons r0 rest ih =>
    intro budget t l2 t2 h k r hk
    rw [allocDice] at h
    dsimp only [Tape.draw] at h
    split at h
    · exact absurd h (by simp)
    · next hbig =>
      split at h
      · exact absurd h (by simp)
      · next rest1 t3 heq =>
        obtain ⟨hl2, -⟩ : ({ r0 with num_dice :=
            1 + (t.f t.pos) % (min 4 (budget r0.owner) - 1) } :: rest1 = l2) ∧ t3 = t2 := by
          have := Option.some.inj h
          exact ⟨congrArg Prod.fst this, congrArg Prod.snd this⟩
        subst hl2
        have hk2 : 2 ≤ min 4 (budget r0.owner) := by omega
        have hmod : (t.f t.pos) % (min 4 (budget r0.owner) - 1) <
            min 4 (budget r0.owner) - 1 := Nat.mod_lt _ (by omega)
        cases k with
        | zero =>
          obtain rfl : ({ r0 with num_dice :=
              1 + (t.f t.pos) % (min 4 (budget r0.owner) - 1) } : Region) = r := by
            simpa using hk
          refine ⟨by simp, ?_⟩
          show 1 + (t.f t.pos) % (min 4 (budget r0.owner) - 1) <
            min 4 (budget r0.owner - spentBefore ({ r0 with num_dice :=
              1 + (t.f t.pos) % (min 4 (budget r0.owner) - 1) } :: rest1) 0 r0.owner)
          rw [show spentBefore ({ r0 with num_dice :=
              1 + (t.f t.pos) % (min 4 (budget r0.owner) - 1) } :: rest1) 0 r0.owner
            = 0 from rfl, Nat.sub_zero]
          omega
        | succ k =>
          have hrk : rest1.get? k = some r := hk
          obtain ⟨h1, h2⟩ := ih _ _ _ _ heq k r hrk
          refine ⟨h1, ?_⟩
          have hsp : spentBefore ({ r0 with num_dice :=
              1 + (t.f t.pos) % (min 4 (budget r0.owner) - 1) } :: rest1) (k + 1) r.owner =
              (if r0.owner = r.owner then 1 + (t.f t.pos) % (min 4 (budget r0.owner) - 1)
               else 0) + spentBefore rest1 k r.owner := rfl
          rw [hsp]
          by_cases hq : r.owner = r0.owner
          · rw [if_pos hq.symm]
            rw [if_pos hq] at h2
            rw [hq] at h2 ⊢
            omega
          · rw [if_neg (fun hx => hq hx.symm)]
            rw [if_neg hq] at h2
            omega

/-- Helper: the dice spent on a player's regions never exceed that player's
budget. -/
theorem allocDice_sum (l : List Region) :
    ∀ (budget : Nat → Nat) (t : Tape) (l2 : List Region) (t2 : Tape),
      allocDice l budget t = some (l2, t2) →
      ∀ p, spentBefore l2 l2.length p ≤ budget p := by
  induction l with
  | nil =>
    intro budget t l2 t2 h p
    obtain ⟨rfl, -⟩ : l2 = [] ∧ t2 = t := by
      simpa [allocDice, eq_comm] using h
    simp [spentBefore]
  | cons r0 rest ih =>
    intro budget t l2 t2 h p
    rw [allocDice] at h
    dsimp only [Tape.draw] at h
    split at h
    · exact absurd h (by simp)
    · next hbig =>
      split at h
      · exact absurd h (by simp)
      · next rest1 t3 heq =>
        obtain ⟨hl2, -⟩ : ({ r0 with num_dice :=
            1 + (t.f t.pos) % (min 4 (budget r0.owner) - 1) } :: rest1 = l2) ∧ t3 = t2 := by
          have := Option.some.inj h
          exact ⟨congrArg Prod.fst this, congrArg Prod.snd this⟩
        subst hl2
        have hk2 : 2 ≤ min 4 (budget r0.owner) := by omega
        have hmod : (t.f t.pos) % (min 4 (budget r0.owner) - 1) <
            min 4 (budget r0.owner) - 1 := Nat.mod_lt _ (by omega)
        have hrec := ih _ _ _ _ heq p
        have hsp : spentBefore ({ r0 with num_dice :=
            1 + (t.f t.pos) % (min 4 (budget r0.owner) - 1) } :: rest1)
            (rest1.length + 1) p =
            (if r0.owner = p then 1 + (t.f t.pos) % (min 4 (budget r0.owner) - 1)
             else 0) + spentBefore rest1 rest1.length p := rfl
        show spentBefore ({ r0 with num_dice :=
            1 + (t.f t.pos) % (min 4 (budget r0.owner) - 1) } :: rest1)
            (rest1.length + 1) p ≤ budget p
        rw [hsp]
        by_cases hq : r0.owner = p
        · subst hq
          rw [if_pos rfl]
          rw [if_pos rfl] at hrec
          omega
        · rw [if_neg hq]
          rw [if_neg (fun hx => hq hx.symm)] at hrec
          omega

/-- Helper: `spentBefore` over the whole list is the sum of the dice of the
player's regions. -/
theorem spentBefore_eq_sum (l : List Region) (p : Nat) :
    spentBefore l l.length p =
      ((l.filter (fun r => decide (r.owner = p))).map (fun r => r.num_dice)).sum := by
  induction l with
  | nil => rfl
  | cons r rest ih =>
    show (if r.owner = p then r.num_dice else 0) + spentBefore rest rest.length p = _
    rw [ih]
    by_cases hq : r.owner = p
    · rw [if_pos hq]
      rw [List.filter_cons_of_pos (by simpa using hq)]
      simp
    · rw [if_neg hq]
      rw [List.filter_cons_of_neg (by simpa using hq)]
      simp

/-- Helper: the generation invariant only concerns footprints, owners and
ids, so it transfers along a pointwise correspondence that preserves them
(dice allocation is such a correspondence). -/
theorem GenInv.transfer (n : Nat) (m : HexMap) (l l2 : List Region)
    (hinv : GenInv n ⟨m, l⟩) (_hlen : l2.length = l.length)
    (hpt : ∀ i, (l2.get? i).map (fun r => (r.hexes, r.owner, r.id)) =
                (l.get? i).map (fun r => (r.hexes, r.owner, r.id))) :
    GenInv n ⟨m, l2⟩ := by
  have hfwd : ∀ i r2, l2.get? i = some r2 → ∃ r1, l.get? i = some r1 ∧
      r1.hexes = r2.hexes ∧ r1.owner = r2.owner ∧ r1.id = r2.id := by
    intro i r2 h2
    have hp := hpt i
    rw [h2] at hp
    cases h1 : l.get? i with
    | none => rw [h1] at hp; simp at hp
    | some r1 =>
      rw [h1] at hp
      simp only [Option.map_some', Option.some.injEq, Prod.mk.injEq] at hp
      exact ⟨r1, rfl, hp.1.symm, hp.2.1.symm, hp.2.2.symm⟩
  have hbwd : ∀ i r1, l.get? i = some r1 → ∃ r2, l2.get? i = some r2 ∧
      r1.hexes = r2.hexes ∧ r1.owner = r2.owner ∧ r1.id = r2.id := by
    intro i r1 h1
    have hp := hpt i
    rw [h1] at hp
    cases h2 : l2.get? i with
    | none => rw [h2] at hp; simp at hp
    | some r2 =>
      rw [h2] at hp
      simp only [Option.map_some', Option.some.injEq, Prod.mk.injEq] at hp
      exact ⟨r2, rfl, hp.1.symm, hp.2.1.symm, hp.2.2.symm⟩
  refine ⟨?_, ?_, ?_, ?_, ?_, ?_⟩
  · intro r2 hr2 c hc
    obtain ⟨i, hi⟩ := List.mem_iff_get?.mp hr2
    obtain ⟨r1, h1, hh, ho, -⟩ := hfwd i r2 hi
    rw [← ho]
    exact hinv.mapped r1 (List.get?_mem h1) c (by rw [hh]; exact hc)
  · intro c p hc
    obtain ⟨r1, hr1, hcr⟩ := hinv.covered c p hc
    obtain ⟨i, hi⟩ := List.mem_iff_get?.mp hr1
    obtain ⟨r2, h2, hh, -, -⟩ := hbwd i r1 hi
    exact ⟨r2, List.get?_mem h2, by rw [← hh]; exact hcr⟩
  · rw [List.pairwise_iff_get]
    intro i j hij
    have hd := (List.pairwise_iff_get.mp hinv.disj)
    obtain ⟨r1i, h1i, hhi, -, -⟩ := hfwd i (l2.get i) (List.get?_eq_get i.isLt)
    obtain ⟨r1j, h1j, hhj, -, -⟩ := hfwd j (l2.get j) (List.get?_eq_get j.isLt)
    obtain ⟨hilt, hgi⟩ := List.get?_eq_some.mp h1i
    obtain ⟨hjlt, hgj⟩ := List.get?_eq_some.mp h1j
    intro c hci
    have := hd ⟨i, hilt⟩ ⟨j, hjlt⟩ hij c
    rw [hgi, hgj, hhi, hhj] at this
    exact this hci
  · intro i r2 h2
    obtain ⟨r1, h1, -, -, hid⟩ := hfwd i r2 h2
    rw [← hid]
    exact hinv.ids i r1 h1
  · intro r2 hr2
    obtain ⟨i, hi⟩ := List.mem_iff_get?.mp hr2
    obtain ⟨r1, h1, -, ho, -⟩ := hfwd i r2 hi
    rw [← ho]
    exact hinv.owners r1 (List.get?_mem h1)
  · intro r2 hr2
    obtain ⟨i, hi⟩ := List.mem_iff_get?.mp hr2
    obtain ⟨r1, h1, hh, -, -⟩ := hfwd i r2 hi
    rw [← hh]
    exact hinv.conn r1 (List.get?_mem h1)

/-- Helper: the generation invariant implies the spec's partition
invariant. -/
theorem GenInv.partition (n : Nat) (b : Board) (h : GenInv n b) : PartitionInv b := by
  intro c p key
  obtain ⟨r, hr, hcr⟩ := h.covered c p key
  obtain ⟨i, hi⟩ := List.mem_iff_get?.mp hr
  constructor
  · refine ⟨i, ⟨r, hi, hcr⟩, ?_⟩
    rintro j ⟨s, hj, hcs⟩
    by_contra hne
    obtain ⟨hilt, hgi⟩ := List.get?_eq_some.mp hi
    obtain ⟨hjlt, hgj⟩ := List.get?_eq_some.mp hj
    have hd := List.pairwise_iff_get.mp h.disj
    rcases Nat.lt_or_ge j i with hlt | hge
    · have := hd ⟨j, hjlt⟩ ⟨i, hilt⟩ hlt c
      rw [hgi, hgj] at this
      exact this hcs hcr
    · have hlt2 : i < j := by omega
      have := hd ⟨i, hilt⟩ ⟨j, hjlt⟩ hlt2 c
      rw [hgi, hgj] at this
      exact this hcr hcs
  · intro j s hj hcs
    have hmapped : hmGet b.hexes c = some s.owner := h.mapped s (List.get?_mem hj) c hcs
    rw [key] at hmapped
    exact (Option.some.inj hmapped).symm

/-- Helper: decomposition of a successful `generate_board` run into the
placement fold and the dice allocation. -/
theorem generate_board_parts (n : Nat) (t : Tape) (fuel : Nat) (b : Board)
    (h : generate_board n t fuel = some b) :
    ∃ b0 t1 t2, genBoardLoop fuel
        ((BOARD_SIZE * BOARD_SIZE) / (NUMBER_OF_PATCHES * n * 2))
        (pairsList n) ⟨[], []⟩ t = some (b0, t1) ∧
      allocDice b0.regions (fun _ => NUMBER_OF_PATCHES * 4) t1 = some (b.regions, t2) ∧
      b.hexes = b0.hexes := by
  unfold generate_board at h
  dsimp only at h
  split at h
  · exact absurd h (by simp)
  · next b0 t1 hg =>
    split at h
    · exact absurd h (by simp)
    · next regions1 t2 ha =>
      obtain rfl : ({ b0 with regions := regions1 } : Board) = b := Option.some.inj h
      exact ⟨b0, t1, t2, hg, ha, rfl⟩

/-- Helper: the generation invariant holds for every board `generate_board`
returns. -/
theorem generate_board_inv (n : Nat) (t : Tape) (fuel : Nat) (b : Board)
    (h : generate_board n t fuel = some b) : GenInv n b := by
  obtain ⟨b0, t1, t2, hg, ha, hx⟩ := generate_board_parts n t fuel b h
  have h0 : GenInv n b0 :=
    genBoardLoop_inv n fuel _ (pairsList n) ⟨[], []⟩ t b0 t1
      (pairsList_owners n) (GenInv.empty n) hg
  obtain ⟨hlen, hpt⟩ := allocDice_shape b0.regions _ t1 b.regions t2 ha
  have : GenInv n ⟨b0.hexes, b.regions⟩ := by
    refine GenInv.transfer n b0.hexes b0.regions b.regions ?_ hlen hpt
    obtain ⟨m0, l0⟩ := b0
    exact h0
  rw [← hx] at this
  obtain ⟨mx, lx⟩ := b
  exact this

/-- Helper: writing one region back with its footprint and id intact leaves
footprints and ids unchanged pointwise. -/
theorem set_frame (l : List Region) (i : Nat) (rNew rOld : Region)
    (hg : l.get? i = some rOld) (hh : rNew.hexes = rOld.hexes) (hid : rNew.id = rOld.id) :
    ∀ j, ((l.set i rNew).get? j).map (fun r => (r.hexes, r.id)) =
         (l.get? j).map (fun r => (r.hexes, r.id)) := by
  intro j
  by_cases hij : i = j
  · subst hij
    obtain ⟨hlt, -⟩ := List.get?_eq_some.mp hg
    rw [List.get?_set_eq_of_lt _ hlt, hg]
    simp [hh, hid]
  · rw [List.get?_set_ne _ _ hij]

/-- Helper: `setOwner` preserves length, footprints and ids. -/
theorem setOwner_frame (l : List Region) (i p : Nat) (l2 : List Region)
    (h : setOwner l i p = some l2) :
    l2.length = l.length ∧
    ∀ j, (l2.get? j).map (fun r => (r.hexes, r.id)) =
         (l.get? j).map (fun r => (r.hexes, r.id)) := by
  unfold setOwner at h
  cases hg : l.get? i with
  | none => rw [hg] at h; exact absurd h (by simp)
  | some r =>
    rw [hg] at h
    obtain rfl : l.set i { r with owner := p } = l2 := Option.some.inj h
    exact ⟨List.length_set l i _, set_frame l i _ r hg rfl rfl⟩

/-- Helper: `setDice` preserves length, footprints and ids. -/
theorem setDice_frame (l : List Region) (i d : Nat) (l2 : List Region)
    (h : setDice l i d = some l2) :
    l2.length = l.length ∧
    ∀ j, (l2.get? j).map (fun r => (r.hexes, r.id)) =
         (l.get? j).map (fun r => (r.hexes, r.id)) := by
  unfold setDice at h
  cases hg : l.get? i with
  | none => rw [hg] at h; exact absurd h (by simp)
  | some r =>
    rw [hg] at h
    obtain rfl : l.set i { r with num_dice := d } = l2 := Option.some.inj h
    exact ⟨List.length_set l i _, set_frame l i _ r hg rfl rfl⟩

/-- Helper: `subDice` preserves length, footprints and ids. -/
theorem subDice_frame (l : List Region) (i amt : Nat) (l2 : List Region)
    (h : subDice l i amt = some l2) :
    l2.length = l.length ∧
    ∀ j, (l2.get? j).map (fun r => (r.hexes, r.id)) =
         (l.get? j).map (fun r => (r.hexes, r.id)) := by
  unfold subDice at h
  cases hg : l.get? i with
  | none => rw [hg] at h; exact absurd h (by simp)
  | some r =>
    rw [hg] at h
    dsimp only at h
    split at h
    · obtain rfl : l.set i { r with num_dice := r.num_dice - amt } = l2 := Option.some.inj h
      exact ⟨List.length_set l i _, set_frame l i _ r hg rfl rfl⟩
    · exact absurd h (by simp)

/-- Helper: `resolveWin` preserves length, footprints and ids. -/
theorem resolveWin_frame (l : List Region) (w lo : Region) (t : Tape)
    (l3 : List Region) (t3 : Tape) (h : resolveWin l w lo t = some (l3, t3)) :
    l3.length = l.length ∧
    ∀ j, (l3.get? j).map (fun r => (r.hexes, r.id)) =
         (l.get? j).map (fun r => (r.hexes, r.id)) := by
  unfold resolveWin at h
  cases hso : setOwner l lo.id w.owner with
  | none => rw [hso] at h; exact absurd h (by simp)
  | some l1 =>
    rw [hso] at h
    dsimp only at h
    obtain ⟨hlen1, hpt1⟩ := setOwner_frame l lo.id w.owner l1 hso
    split at h
    · cases hsd : setDice l1 lo.id (1 + (Tape.draw t).1 % (w.num_dice - 1)) with
      | none => rw [hsd] at h; exact absurd h (by simp)
      | some l2 =>
        rw [hsd] at h
        dsimp only at h
        obtain ⟨hlen2, hpt2⟩ := setDice_frame l1 lo.id _ l2 hsd
        cases hg2 : l2.get? lo.id with
        | none => rw [hg2] at h; exact absurd h (by simp)
        | some lr =>
          rw [hg2] at h
          dsimp only at h
          cases hsub : subDice l2 w.id (lr.num_dice - 1) with
          | none => rw [hsub] at h; exact absurd h (by simp)
          | some l4 =>
            rw [hsub] at h
            obtain ⟨hl4, -⟩ : l4 = l3 ∧ (Tape.draw t).2 = t3 := by
              have := Option.some.inj h
              exact ⟨congrArg Prod.fst this, congrArg Prod.snd this⟩
            subst hl4
            obtain ⟨hlen3, hpt3⟩ := subDice_frame l2 w.id _ l4 hsub
            refine ⟨by omega, ?_⟩
            intro j
            rw [hpt3 j, hpt2 j, hpt1 j]
    · obtain ⟨hl1, -⟩ : l1 = l3 ∧ t = t3 := by
        have := Option.some.inj h
        exact ⟨congrArg Prod.fst this, congrArg Prod.snd this⟩
      subst hl1
      exact ⟨hlen1, hpt1⟩

/-- Helper: clash-end processing keeps the hex map, the region count and,
pointwise, each region's footprint and id. -/
theorem clashEndStep_frame (b : Board) (e : ClashEnd) (t : Tape)
    (b1 : Board) (t1 : Tape) (h : clashEndStep b e t = some (b1, t1)) :
    b1.hexes = b.hexes ∧ b1.regions.length = b.regions.length ∧
    ∀ j, (b1.regions.get? j).map (fun r => (r.hexes, r.id)) =
         (b.regions.get? j).map (fun r => (r.hexes, r.id)) := by
  unfold clashEndStep at h
  split at h
  · cases hrw : resolveWin b.regions e.region1 e.region2 t with
    | none => rw [hrw] at h; exact absurd h (by simp)
    | some p =>
      obtain ⟨l3, t3⟩ := p
      rw [hrw] at h
      obtain ⟨hb, -⟩ : ({ b with regions := l3 } : Board) = b1 ∧ t3 = t1 := by
        have := Option.some.inj h
        exact ⟨congrArg Prod.fst this, congrArg Prod.snd this⟩
      obtain ⟨hlen, hpt⟩ := resolveWin_frame b.regions e.region1 e.region2 t l3 t3 hrw
      rw [← hb]
      exact ⟨rfl, hlen, hpt⟩
  · cases hrw : resolveWin b.regions e.region2 e.region1 t with
    | none => rw [hrw] at h; exact absurd h (by simp)
    | some p =>
      obtain ⟨l3, t3⟩ := p
      rw [hrw] at h
      obtain ⟨hb, -⟩ : ({ b with regions := l3 } : Board) = b1 ∧ t3 = t1 := by
        have := Option.some.inj h
        exact ⟨congrArg Prod.fst this, congrArg Prod.snd this⟩
      obtain ⟨hlen, hpt⟩ := resolveWin_frame b.regions e.region2 e.region1 t l3 t3 hrw
      rw [← hb]
      exact ⟨rfl, hlen, hpt⟩

/-- C4. Region connectivity: every region of a board returned by
`generate_board` has a non-empty footprint that is connected under the
six-neighbor hex adjacency: from any member hex, repeatedly stepping to
adjacent member hexes reaches every other member hex. -/
theorem region_connectivity (n : Nat) (t : Tape) (fuel : Nat) (b : Board)
    (hgen : generate_board n t fuel = some b) :
    ∀ r ∈ b.regions, r.hexes ≠ [] ∧ ConnectedL r.hexes :=
  (generate_board_inv n t fuel b hgen).conn

/-- Witness for C4 at the 13-player run (whose patch-size budget is zero, so
the returned board has no regions and the bound holds for each of them). -/
theorem region_connectivity_witness :
    generate_board 13 tape0 1 = some emptyBoard ∧
      ∀ r ∈ emptyBoard.regions, r.hexes ≠ [] ∧ ConnectedL r.hexes :=
  ⟨gen13_eval, region_connectivity 13 tape0 1 emptyBoard gen13_eval⟩

/-- C7. Dice allocation bounds: in a board returned by `generate_board`,
every region's dice count is at least 1 and strictly below
`min 4 (owner's remaining budget at that region's allocation step)`, the
budget starting at `NUMBER_OF_PATCHES * 4` and being decremented by each
allocated count in region-creation order; consequently each player's total
allocated dice never exceed `NUMBER_OF_PATCHES * 4`. -/
theorem dice_allocation_bounds (n : Nat) (t : Tape) (fuel : Nat) (b : Board)
    (hgen : generate_board n t fuel = some b) :
    (∀ k r, b.regions.get? k = some r →
      1 ≤ r.num_dice ∧
      r.num_dice < min 4 (NUMBER_OF_PATCHES * 4 - spentBefore b.regions k r.owner)) ∧
    (∀ p, ((b.regions.filter (fun r => decide (r.owner = p))).map
        (fun r => r.num_dice)).sum ≤ NUMBER_OF_PATCHES * 4) := by
  obtain ⟨b0, t1, t2, -, ha, -⟩ := generate_board_parts n t fuel b hgen
  constructor
  · exact allocDice_bounds b0.regions _ t1 b.regions t2 ha
  · intro p
    rw [← spentBefore_eq_sum]
    exact allocDice_sum b0.regions _ t1 b.regions t2 ha p

/-- Witness for C7 at the 13-player run. -/
theorem dice_allocation_bounds_witness :
    (∀ k r, emptyBoard.regions.get? k = some r →
      1 ≤ r.num_dice ∧
      r.num_dice < min 4 (NUMBER_OF_PATCHES * 4 -
        spentBefore emptyBoard.regions k r.owner)) ∧
    (∀ p, ((emptyBoard.regions.filter (fun r => decide (r.owner = p))).map
        (fun r => r.num_dice)).sum ≤ NUMBER_OF_PATCHES * 4) :=
  dice_allocation_bounds 13 tape0 1 emptyBoard gen13_eval

/-- C9. Region id stability: every board returned by `generate_board` has
`regions[i].id = i` for every valid index, and clash resolution preserves
both the region count and this property (it never reorders, adds or removes
regions), so indexing `board.regions` by a region's id always addresses that
region. -/
theorem region_id_stability :
    (∀ (n : Nat) (t : Tape) (fuel : Nat) (b : Board),
      generate_board n t fuel = some b → IdsInv b.regions) ∧
    (∀ (b : Board) (e : ClashEnd) (t : Tape) (b1 : Board) (t1 : Tape),
      IdsInv b.regions → clashEndStep b e t = some (b1, t1) →
      b1.regions.length = b.regions.length ∧ IdsInv b1.regions) := by
  constructor
  · intro n t fuel b hgen
    exact (generate_board_inv n t fuel b hgen).ids
  · intro b e t b1 t1 hids hstep
    obtain ⟨-, hlen, hpt⟩ := clashEndStep_frame b e t b1 t1 hstep
    refine ⟨hlen, ?_⟩
    intro i r2 h2
    have hp := hpt i
    rw [h2] at hp
    cases h1 : b.regions.get? i with
    | none => rw [h1] at hp; simp at hp
    | some r1 =>
      rw [h1] at hp
      simp only [Option.map_some', Option.some.injEq, Prod.mk.injEq] at hp
      rw [hp.2]
      exact hids i r1 h1

/-- Helper: the ids of the sample board `bCB` are creation-order indices. -/
theorem idsInv_bCB : IdsInv bCB.regions := by
  intro i r h
  match i with
  | 0 =>
    obtain rfl : rC = r := Option.some.inj h
    rfl
  | 1 =>
    obtain rfl : rB = r := Option.some.inj h
    rfl
  | Nat.succ (Nat.succ k) => exact absurd h (by simp [bCB])

/-- Witness for C9: the empty generated board, and the one-die sample capture
which keeps both ids in place. -/
theorem region_id_stability_witness :
    IdsInv emptyBoard.regions ∧
      (bFlip.regions.length = bCB.regions.length ∧ IdsInv bFlip.regions) :=
  ⟨region_id_stability.1 13 tape0 1 emptyBoard gen13_eval,
   region_id_stability.2 bCB eCB tape0 bFlip tape0 idsInv_bCB (by rfl)⟩

/-- C2 amended.  Every board returned by `generate_board` satisfies the
partition invariant: each hex key belongs to exactly one region, whose owner
is the stored value.  Clash resolution keeps the hex map, the region count
and every footprint unchanged — so each key still belongs to exactly one
region — but it does NOT update `board.hexes` when it reassigns a region's
owner, so the owner-equality half of the invariant is not preserved (see the
counterexample). -/
theorem partition_invariant_amended :
    (∀ (n : Nat) (t : Tape) (fuel : Nat) (b : Board),
      generate_board n t fuel = some b → PartitionInv b) ∧
    (∀ (b : Board) (e : ClashEnd) (t : Tape) (b1 : Board) (t1 : Tape),
      clashEndStep b e t = some (b1, t1) →
      b1.hexes = b.hexes ∧ b1.regions.length = b.regions.length ∧
      (∀ j, (b1.regions.get? j).map (fun r => r.hexes) =
            (b.regions.get? j).map (fun r => r.hexes)) ∧
      (PartitionInv b → ∀ c p, hmGet b1.hexes c = some p →
        ∃! i : Nat, ∃ r, b1.regions.get? i = some r ∧ c ∈ r.hexes)) := by
  constructor
  · intro n t fuel b hgen
    exact GenInv.partition n b (generate_board_inv n t fuel b hgen)
  · intro b e t b1 t1 hstep
    obtain ⟨hx, hlen, hpt⟩ := clashEndStep_frame b e t b1 t1 hstep
    have hfoot : ∀ j, (b1.regions.get? j).map (fun r => r.hexes) =
        (b.regions.get? j).map (fun r => r.hexes) := by
      intro j
      have hp := hpt j
      cases h2 : b1.regions.get? j with
      | none =>
        rw [h2] at hp
        cases h1 : b.regions.get? j with
        | none => rfl
        | some r1 => rw [h1] at hp; simp at hp
      | some r2 =>
        rw [h2] at hp
        cases h1 : b.regions.get? j with
        | none => rw [h1] at hp; simp at hp
        | some r1 =>
          rw [h1] at hp
          simp only [Option.map_some', Option.some.injEq, Prod.mk.injEq] at hp
          simp [hp.1]
    refine ⟨hx, hlen, hfoot, ?_⟩
    intro hpart c p hc
    rw [hx] at hc
    obtain ⟨⟨i, ⟨r, hi, hcr⟩, huniq⟩, -⟩ := hpart c p hc
    have hmem : ∀ j s, b1.regions.get? j = some s → c ∈ s.hexes →
        ∃ s1, b.regions.get? j = some s1 ∧ c ∈ s1.hexes := by
      intro j s hj hcs
      have hp := hfoot j
      rw [hj] at hp
      cases h1 : b.regions.get? j with
      | none => rw [h1] at hp; simp at hp
      | some s1 =>
        rw [h1] at hp
        simp only [Option.map_some', Option.some.injEq] at hp
        exact ⟨s1, rfl, by rw [← hp]; exact hcs⟩
    have hmem2 : ∀ j s1, b.regions.get? j = some s1 → c ∈ s1.hexes →
        ∃ s, b1.regions.get? j = some s ∧ c ∈ s.hexes := by
      intro j s1 hj hcs
      have hp := hfoot j
      rw [hj] at hp
      cases h2 : b1.regions.get? j with
      | none => rw [h2] at hp; simp at hp
      | some s =>
        rw [h2] at hp
        simp only [Option.map_some', Option.some.injEq] at hp
        exact ⟨s, rfl, by rw [hp]; exact hcs⟩
    obtain ⟨s, hs, hcs⟩ := hmem2 i r hi hcr
    refine ⟨i, ⟨s, hs, hcs⟩, ?_⟩
    rintro j ⟨s2, hj, hcs2⟩
    obtain ⟨s1, hj1, hcs1⟩ := hmem j s2 hj hcs2
    exact huniq j ⟨s1, hj1, hcs1⟩

/-- Witness for the amended C2: the 13-player generated board satisfies the
partition invariant, and the sample capture keeps the hex map, count and
footprints while preserving the exactly-one-region property. -/
theorem partition_invariant_amended_witness :
    PartitionInv emptyBoard ∧
      (bFlip.hexes = bCB.hexes ∧ bFlip.regions.length = bCB.regions.length ∧
        (∀ j, (bFlip.regions.get? j).map (fun r => r.hexes) =
              (bCB.regions.get? j).map (fun r => r.hexes)) ∧
        (PartitionInv bCB → ∀ c p, hmGet bFlip.hexes c = some p →
          ∃! i : Nat, ∃ r, bFlip.regions.get? i = some r ∧ c ∈ r.hexes)) :=
  ⟨partition_invariant_amended.1 13 tape0 1 emptyBoard gen13_eval,
   partition_invariant_amended.2 bCB eCB tape0 bFlip tape0 (by rfl)⟩

/-- Counterexample for C2.  The partition invariant holds on the sample
board `bCB`, but `event_region_clash_end` reassigns the captured region's
owner without updating `board.hexes`: after the one-die capture of `rB` by
`rC` the hex `(1,0)` still stores owner 1 in the map while the unique region
containing it now has owner 0, so the owner-equality half of the invariant
is not preserved by clash resolution. -/
theorem partition_invariant_cex :
    PartitionInv bCB ∧
    clashEndStep bCB eCB tape0 = some (bFlip, tape0) ∧
    ¬ PartitionInv bFlip := by
  refine ⟨?_, by rfl, ?_⟩
  · intro c p key
    by_cases h0 : ((0, 0) : Coord) = c
    · subst h0
      have hp : 0 = p := Option.some.inj key
      subst hp
      constructor
      · refine ⟨0, ⟨rC, rfl, by decide⟩, ?_⟩
        rintro j ⟨s, hj, hcs⟩
        rcases j with _ | _ | j
        · rfl
        · obtain rfl : rB = s := Option.some.inj hj
          exact absurd hcs (by decide)
        · exact absurd hj (by simp [bCB])
      · intro i r hi hcr
        rcases i with _ | _ | i
        · obtain rfl : rC = r := Option.some.inj hi
          rfl
        · obtain rfl : rB = r := Option.some.inj hi
          exact absurd hcr (by decide)
        · exact absurd hi (by simp [bCB])
    · by_cases h1 : ((1, 0) : Coord) = c
      · subst h1
        have hp : 1 = p := Option.some.inj key
        subst hp
        constructor
        · refine ⟨1, ⟨rB, rfl, by decide⟩, ?_⟩
          rintro j ⟨s, hj, hcs⟩
          rcases j with _ | _ | j
          · obtain rfl : rC = s := Option.some.inj hj
            exact absurd hcs (by decide)
          · rfl
          · exact absurd hj (by simp [bCB])
        · intro i r hi hcr
          rcases i with _ | _ | i
          · obtain rfl : rC = r := Option.some.inj hi
            exact absurd hcr (by decide)
          · obtain rfl : rB = r := Option.some.inj hi
            rfl
          · exact absurd hi (by simp [bCB])
      · rw [show hmGet bCB.hexes c = none from by
          have htail : hmGet [((1, 0), 1)] c = none := by
            show (if ((1, 0) : Coord) = c then some 1 else hmGet [] c) = none
            rw [if_neg h1]
            rfl
          show (if ((0, 0) : Coord) = c then some 0 else hmGet [((1, 0), 1)] c) = none
          rw [if_neg h0, htail]] at key
        exact absurd key (by simp)
  · intro h
    have hown := (h (1, 0) 1 (by rfl)).2 1 ⟨[(1, 0)], 0, 1, 1⟩ rfl (by decide)
    exact absurd hown (by decide)

end StackRankDice
